import Mathlib

/-!
# thread-race: a verification development

A shallow embedding of `prog5.cpp`: the easing functions, `Racer::update`, the three
global atomics and the worker loop `raceFunction`, with the properties of the race
proved about them.

* `float` and `double` values are the rationals they denote; every arithmetic operation
  is the exact rational operation followed by round-to-nearest-even into the type of the
  expression (`f32` for binary32, `f64` for binary64), as C++ evaluates it without
  extended precision or contraction.  Infinities and NaN are not modelled; no operation
  of the program reaches them on the inputs considered.
* The routines `cos`, `sin` and `pow` of the C maths library are not part of the
  repository; the easing functions take them as a parameter `LibM`.
* The atomics are sequentially consistent (`load()` and `store()` with the default
  memory order), so a concurrent execution is an interleaving of the workers'
  atomic operations.
* Of `main`, the creation of the four racers and threads and the space-bar branch that
  stores `raceStarted` are modelled.  Rendering, sound and confetti read the globals
  but never write them and are left out.
-/

namespace ThreadRace

/-! ## Floating point -/

/-- Bit length minus one, by repeated halving; `fuel` bounds the number of halvings. -/
def log2Aux : ℕ → ℕ → ℕ
  | 0, _ => 0
  | fuel + 1, n => if n < 2 then 0 else log2Aux fuel (n / 2) + 1

/-- Bit length minus one of a positive `n < 2 ^ 2 ^ k`, by halving the width `2 ^ k`. -/
def log2Bits : ℕ → ℕ → ℕ
  | 0, _ => 0
  | k + 1, n => if 2 ^ 2 ^ k ≤ n then 2 ^ k + log2Bits k (n / 2 ^ 2 ^ k) else log2Bits k n

/-- The integer `e` with `2 ^ e ≤ n < 2 ^ (e + 1)` for a positive natural `n`; numbers below
`2 ^ 256` take the short way. -/
def natLog2 (n : ℕ) : ℕ := if n < 2 ^ 2 ^ 8 then log2Bits 8 n else log2Aux n n

/-- The binary exponent of a non-zero rational: `2 ^ e ≤ |x| < 2 ^ (e + 1)`. -/
def ilog2 (x : ℚ) : ℤ :=
  let e : ℤ := (natLog2 x.num.natAbs : ℤ) - (natLog2 x.den : ℤ)
  if (2 : ℚ) ^ e ≤ |x| then e else e - 1

/-- Nearest integer, ties to even. -/
def roundEven (q : ℚ) : ℤ :=
  let f := ⌊q⌋
  let r := q - f
  if r < 1 / 2 then f
  else if 1 / 2 < r then f + 1
  else if f % 2 = 0 then f else f + 1

/-- Round-to-nearest-even into the binary format with `prec` significand bits and least
normal exponent `emin` (gradual underflow below it). -/
def roundFloat (prec : ℕ) (emin : ℤ) (x : ℚ) : ℚ :=
  if x = 0 then 0
  else
    let e := max (ilog2 x) emin
    let u : ℚ := 2 ^ (e - (prec - 1))
    roundEven (x / u) * u

/-- Rounding to `float` (IEEE 754 binary32). -/
def f32 (x : ℚ) : ℚ := roundFloat 24 (-126) x

/-- Rounding to `double` (IEEE 754 binary64). -/
def f64 (x : ℚ) : ℚ := roundFloat 53 (-1022) x

/-- Conversion of a floating-point value to `int`: truncation toward zero. -/
def truncInt (q : ℚ) : ℤ := if 0 ≤ q then ⌊q⌋ else ⌈q⌉

/-! ## Constants and globals -/

/-- Window width, `const int WIDTH = 800`. -/
def WIDTH : ℤ := 800

/-- Window height, `const int HEIGHT = 600`. -/
def HEIGHT : ℤ := 600

/-- The constant `M_PI` of `<cmath>`: the decimal `3.14159265358979323846` as a `double`. -/
def M_PI : ℚ := f64 (314159265358979323846 / 100000000000000000000)

/-- The three global atomics `raceFinished`, `raceStarted`, `winnerId`. -/
structure RaceState where
  raceFinished : Bool
  raceStarted : Bool
  winnerId : ℤ
  deriving DecidableEq, Repr

/-- Their initial values: `raceFinished(false)`, `raceStarted(false)`, `winnerId(-1)`. -/
def RaceState.initial : RaceState :=
  { raceFinished := false, raceStarted := false, winnerId := -1 }

/-- The participant ids used by `main`: 0, 1, 2, 3. -/
def validId (i : ℤ) : Prop := 0 ≤ i ∧ i ≤ 3

instance (i : ℤ) : Decidable (validId i) := by unfold validId; infer_instance

/-! ## Easing functions -/

/-- The double-precision routines of the C maths library called by the easing functions. -/
structure LibM where
  cos : ℚ → ℚ
  sin : ℚ → ℚ
  pow : ℚ → ℚ → ℚ

/-- The function `constrain`: `std::min(high, std::max(low, x))`. -/
def constrain (x low high : ℚ) : ℚ := min high (max low x)

/-- The function `ease_in_sine`: `1 - cos((percent * M_PI) / 2)`, computed in `double` and
returned as `float`. -/
def ease_in_sine (m : LibM) (percent : ℚ) : ℚ :=
  let percent := constrain percent 0 1
  f32 (f64 (1 - m.cos (f64 (f64 (percent * M_PI) / 2))))

/-- The function `ease_out_sine`: `sin((percent * M_PI) / 2)`. -/
def ease_out_sine (m : LibM) (percent : ℚ) : ℚ :=
  let percent := constrain percent 0 1
  f32 (m.sin (f64 (f64 (percent * M_PI) / 2)))

/-- The constant `c1` of `ease_in_out_back`: `const float c1 = 1.70158`. -/
def back_c1 : ℚ := f32 (f64 (170158 / 100000))

/-- The constant `c2` of `ease_in_out_back`: `const float c2 = c1 * 1.525`. -/
def back_c2 : ℚ := f32 (f64 (back_c1 * f64 (1525 / 1000)))

/-- The function `ease_in_out_back`.  The `float` sub-expressions are rounded to `float`,
the products with the `double` result of `pow` to `double`, and the value assigned to
`float result` to `float`. -/
def ease_in_out_back (m : LibM) (percent : ℚ) : ℚ :=
  let percent := constrain percent 0 1
  let c2 := back_c2
  let result :=
    if percent < 1 / 2 then
      f32 (f64 (1 / 2 * f64 (m.pow (f32 (2 * percent)) 2
        * f32 (f32 (f32 (f32 (c2 + 1) * 2) * percent) - c2))))
    else
      let p := f32 (f32 (2 * percent) - 2)
      f32 (f64 (1 / 2 * f64 (f64 (m.pow p 2 * f32 (f32 (f32 (c2 + 1) * p) + c2)) + 2)))
  min result 1

/-- The function `ease_in_out_exponential`. -/
def ease_in_out_exponential (m : LibM) (percent : ℚ) : ℚ :=
  let percent := constrain percent 0 1
  if percent = 0 ∨ percent = 1 then percent
  else if percent < 1 / 2 then
    f32 (f64 (1 / 2 * m.pow 2 (f32 (f32 (20 * percent) - 10))))
  else
    f32 (f64 (1 / 2 * f64 (-m.pow 2 (f32 (f32 (-20 * percent) + 10)) + 2)))

/-- The vector `easingFunctions` of `main`, before it is shuffled. -/
def easingFunctions (m : LibM) : List (ℚ → ℚ) :=
  [ease_in_sine m, ease_out_sine m, ease_in_out_back m, ease_in_out_exponential m]

/-! ## Racer -/

/-- The fields of `SDL_Rect`. -/
structure Rect where
  x : ℤ
  y : ℤ
  w : ℤ
  h : ℤ
  deriving DecidableEq, Repr

/-- The data members of class `Racer` (the texture pointer is left out). -/
structure Racer where
  percentageCompleted : ℚ
  easingFunction : ℚ → ℚ
  id : ℤ
  rotationAngle : ℚ
  isSpinning : Bool
  rect : Rect

/-- The constructor of `Racer` for a sprite of width `w` and height `h`. -/
def Racer.mk0 (x y w h : ℤ) (easingFunc : ℚ → ℚ) (racerId : ℤ) : Racer :=
  { percentageCompleted := 0, easingFunction := easingFunc, id := racerId,
    rotationAngle := 0, isSpinning := false, rect := { x := x, y := y, w := w, h := h } }

/-- The method `getPercentageCompleted`. -/
def Racer.getPercentageCompleted (r : Racer) : ℚ := r.percentageCompleted

/-- The method `Racer::update(float delta)`, run against the globals `g`; it returns the
globals together with the racer. -/
def Racer.update (g : RaceState) (r : Racer) (delta : ℚ) : RaceState × Racer :=
  if g.raceFinished = true ∨ r.percentageCompleted ≥ 1 then (g, r)
  else
    let p1 := f32 (r.percentageCompleted + delta)
    let p2 := min p1 1
    let easedPercentage := r.easingFunction p2
    let x := truncInt (f32 (easedPercentage * f32 ((WIDTH - r.rect.w : ℤ) : ℚ)))
    let p3 := if easedPercentage ≥ 1 then 1 else p2
    (g, { r with percentageCompleted := p3, rect := { r.rect with x := x } })

/-- The literal `0.001f` passed to `update` by `raceFunction`. -/
def tickDelta : ℚ := f32 (1 / 1000)

/-- The globals while the race runs: started, not finished, no winner recorded. -/
def running : RaceState := { raceFinished := false, raceStarted := true, winnerId := -1 }

/-- Progress after `n` calls of `update(delta)` under globals `g`. -/
def Racer.advance (g : RaceState) (delta : ℚ) : ℕ → Racer → Racer
  | 0, r => r
  | n + 1, r => Racer.advance g delta n (Racer.update g r delta).2

/-- The progress accumulated from `p` by `n` ticks of `0.001f`, each clamped to `1.0f`, when
the easing sync never fires. -/
def accumulate : ℕ → ℚ → ℚ
  | 0, p => p
  | n + 1, p => accumulate n (min (f32 (p + tickDelta)) 1)

/-- Round a positive natural to 24 significant bits, ties to even: the numerator of the
`float` nearest to `s / 2 ^ j`, over the same denominator. -/
def round24 (s : ℕ) : ℕ :=
  let k := natLog2 s - 23
  let q := s / 2 ^ k
  let r := s % 2 ^ k
  (if 2 * r < 2 ^ k then q else if 2 ^ k < 2 * r then q + 1
    else if q % 2 = 0 then q else q + 1) * 2 ^ k

/-- The recursion of `accumulate` on numerators over a common power of two: `d` is the
numerator of the tick and `top` that of `1.0f`. -/
def accumulateN (d top : ℕ) : ℕ → ℕ → ℕ
  | 0, n => n
  | k + 1, n =>
    if min (round24 (n + d)) top = 0 then accumulateN d top k 0
    else accumulateN d top k (min (round24 (n + d)) top)

/-! ## The finalize block and the worker loop -/

/-- Lines 210-216 of `raceFunction` run without interruption: the check of `raceFinished`
and, when it is clear, the two stores.  The Boolean tells whether the winning branch was
entered. -/
def tryFinish (g : RaceState) (racerId : ℤ) : RaceState × Bool :=
  if !g.raceFinished then
    ({ { g with winnerId := racerId } with raceFinished := true }, true)
  else (g, false)

/-- A sequence of `tryFinish` calls run one after another: the outcome of each call and the
globals after it. -/
def tryFinishAll : RaceState → List ℤ → List (Bool × RaceState)
  | _, [] => []
  | g, i :: rest =>
    let r := tryFinish g i
    (r.2, r.1) :: tryFinishAll r.1 rest

/-- Where a worker thread stands in `raceFunction`: the next operation on shared state. -/
inductive Pc
  | loopTest
  | startTest
  | tick
  | finishTest
  | storeWinner
  | storeFinished
  | exited
  deriving DecidableEq, Repr

/-- One thread running `raceFunction(racer, racerId)`. -/
structure Worker where
  pc : Pc
  racer : Racer
  racerId : ℤ

/-- One atomic step of a worker.
* `loopTest`: `while (!raceFinished.load())`;
* `startTest`: `if (!raceStarted.load())` sleep and `continue`;
* `tick`: `racer->update(0.001f)` and the test `getPercentageCompleted() >= 1`;
* `finishTest`: `if (!raceFinished.load())`;
* `storeWinner`: `winnerId.store(racerId)`;
* `storeFinished`: `raceFinished.store(true)`, then `generateConfetti()` and `break`. -/
def Worker.step (g : RaceState) (w : Worker) : RaceState × Worker :=
  match w.pc with
  | .loopTest =>
    if g.raceFinished then (g, { w with pc := .exited }) else (g, { w with pc := .startTest })
  | .startTest =>
    if !g.raceStarted then (g, { w with pc := .loopTest }) else (g, { w with pc := .tick })
  | .tick =>
    let u := w.racer.update g tickDelta
    if u.2.getPercentageCompleted ≥ 1 then (u.1, { w with racer := u.2, pc := .finishTest })
    else (u.1, { w with racer := u.2, pc := .loopTest })
  | .finishTest =>
    if !g.raceFinished then (g, { w with pc := .storeWinner })
    else (g, { w with pc := .loopTest })
  | .storeWinner => ({ g with winnerId := w.racerId }, { w with pc := .storeFinished })
  | .storeFinished => ({ g with raceFinished := true }, { w with pc := .exited })
  | .exited => (g, w)

/-- A worker run alone until it is back at the head of its loop or has left it. -/
def Worker.runToLoop : ℕ → RaceState → Worker → RaceState × Worker
  | 0, g, w => (g, w)
  | fuel + 1, g, w =>
    let s := w.step g
    if s.2.pc = .loopTest ∨ s.2.pc = .exited then s else Worker.runToLoop fuel s.1 s.2

/-- One whole iteration of the `while` loop of `raceFunction`, run without interruption
(the loop body is at most six atomic steps long). -/
def Worker.iteration (g : RaceState) (w : Worker) : RaceState × Worker :=
  Worker.runToLoop 6 g w

/-- The globals and `n` worker threads. -/
structure System (n : ℕ) where
  shared : RaceState
  workers : Fin n → Worker

/-- What can happen next: the main thread handles a press of the space bar, or worker `i`
takes its next atomic step. -/
inductive Action (n : ℕ)
  | space
  | worker (i : Fin n)

/-- The space-bar branch of the event loop of `main`:
`if (... && !raceStarted.load()) { ...; raceStarted.store(true); ... }`. -/
def System.pressSpace {n : ℕ} (s : System n) : System n :=
  if !s.shared.raceStarted then { s with shared := { s.shared with raceStarted := true } }
  else s

/-- Worker `i` takes one atomic step. -/
def System.stepWorker {n : ℕ} (i : Fin n) (s : System n) : System n :=
  let r := (s.workers i).step s.shared
  { shared := r.1, workers := Function.update s.workers i r.2 }

/-- One action of the interleaved execution. -/
def System.act {n : ℕ} (s : System n) : Action n → System n
  | .space => s.pressSpace
  | .worker i => s.stepWorker i

/-- An interleaved execution: the actions of a schedule in order. -/
def System.run {n : ℕ} (s : System n) (sched : List (Action n)) : System n :=
  sched.foldl System.act s

/-- Worker `i` runs one whole loop iteration without interruption. -/
def System.iterate {n : ℕ} (s : System n) (i : Fin n) : System n :=
  let r := (s.workers i).iteration s.shared
  { shared := r.1, workers := Function.update s.workers i r.2 }

/-- A serial execution: whole loop iterations, one worker at a time. -/
def System.runSerial {n : ℕ} (s : System n) (order : List (Fin n)) : System n :=
  order.foldl System.iterate s

/-- The states an interleaved execution can reach from `s0`. -/
inductive Reachable {n : ℕ} (s0 : System n) : System n → Prop
  | start : Reachable s0 s0
  | next {s : System n} (a : Action n) : Reachable s0 s → Reachable s0 (s.act a)

/-- The four racers and threads that `main` creates: `yellowCar`, `whiteCar`, `redCar`,
`blueCar` with ids 0 to 3, easing functions `fs 0` to `fs 3` (the shuffled vector) and
sprite sizes `w i` by `h i`. -/
def mainWorkers (fs : Fin 4 → ℚ → ℚ) (w h : Fin 4 → ℤ) : Fin 4 → Worker := fun i =>
  { pc := .loopTest
    racer := Racer.mk0 5 (if i = 0 then 125 else if i = 1 then 210 else if i = 2 then 305 else 395)
      (w i) (h i) (fs i) (i.val : ℤ)
    racerId := (i.val : ℤ) }

/-- The state of the program once `main` has created the threads. -/
def mainSystem (fs : Fin 4 → ℚ → ℚ) (w h : Fin 4 → ℤ) : System 4 :=
  { shared := RaceState.initial, workers := mainWorkers fs w h }

/-- A worker that has reached the finalize block of `raceFunction` with a completed racer. -/
def finalizer (racerId : ℤ) : Worker :=
  { pc := .finishTest
    racer := { Racer.mk0 5 125 64 32 (fun p => p) racerId with percentageCompleted := 1 }
    racerId := racerId }

/-- Two workers, with ids 0 and 1, that have both reached the finalize block while the race
is running. -/
def twoFinalizers : System 2 :=
  { shared := running, workers := fun i => finalizer (i.val : ℤ) }

/-! ## Invariants -/

/-- The invariant of the interleaved program: every worker carries its own id, and
`winnerId` holds a participant id exactly when the race is finished or some worker stands
between its two stores. -/
def WinnerInv (s : System 4) : Prop :=
  (∀ i, (s.workers i).racerId = (i.val : ℤ)) ∧
  (validId s.shared.winnerId ↔
    (s.shared.raceFinished = true ∨ ∃ i, (s.workers i).pc = Pc.storeFinished))

/-- The invariant of serial executions of a started race: every worker carries its own id
and rests at the loop head or has left the loop; while the race is unfinished all are at
the loop head; once it is finished some racer is complete. -/
def SerialInv (s : System 4) : Prop :=
  s.shared.raceStarted = true ∧
  (∀ j, (s.workers j).racerId = (j.val : ℤ)) ∧
  (∀ j, (s.workers j).pc = .loopTest ∨ (s.workers j).pc = .exited) ∧
  (s.shared.raceFinished = false → ∀ j, (s.workers j).pc = .loopTest) ∧
  (s.shared.raceFinished = true → ∃ j, (s.workers j).racer.percentageCompleted ≥ 1)

/-! ## A reference maths library -/

/-- A rational stand-in for `cos` on `[-π/2, π/2]`: Bhaskara's approximation
`(π² - 4x²) / (π² + x²)`, with `M_PI` for `π`, rounded to `double`. -/
def refCos (x : ℚ) : ℚ := f64 ((M_PI ^ 2 - 4 * x ^ 2) / (M_PI ^ 2 + x ^ 2))

/-- A rational stand-in for `sin` on `[0, π]`: `sin x = cos (π/2 - x)` under `refCos`. -/
def refSin (x : ℚ) : ℚ := refCos (M_PI / 2 - x)

/-- A rational stand-in for `pow`: exact at integer exponents, and between two consecutive
integer exponents the chord of the exponential; rounded to `double`. -/
def refPow (x y : ℚ) : ℚ := f64 (x ^ ⌊y⌋ * (1 + (x - 1) * (y - ⌊y⌋)))

/-- A concrete maths library against which the easing functions can be evaluated. -/
def refLibM : LibM := { cos := refCos, sin := refSin, pow := refPow }

/-- The unshuffled assignment of `easingFunctions refLibM` to the four racers. -/
def refEasing : Fin 4 → ℚ → ℚ := fun i =>
  if i = 0 then ease_in_sine refLibM
  else if i = 1 then ease_out_sine refLibM
  else if i = 2 then ease_in_out_back refLibM
  else ease_in_out_exponential refLibM

/-- A shuffled assignment of `easingFunctions refLibM`: entries 0 and 2 exchanged. -/
def shuffledEasing : Fin 4 → ℚ → ℚ := fun i =>
  if i = 0 then ease_in_out_back refLibM
  else if i = 1 then ease_out_sine refLibM
  else if i = 2 then ease_in_sine refLibM
  else ease_in_out_exponential refLibM

/-! # Theorems -/

/-! ## Rounding: exponent, monotonicity, idempotence -/

theorem log2Aux_spec (fuel : ℕ) : ∀ n : ℕ, n ≤ fuel → n ≠ 0 →
    2 ^ log2Aux fuel n ≤ n ∧ n < 2 ^ (log2Aux fuel n + 1) := by
  induction fuel with
  | zero => intro n h1 h2; omega
  | succ k ih =>
    intro n h1 h2
    unfold log2Aux
    by_cases hn : n < 2
    · simp only [hn, if_true]
      constructor
      · simp; omega
      · simpa using hn
    · simp only [hn, if_false]
      have hk : n / 2 ≤ k := by omega
      have h0 : n / 2 ≠ 0 := by omega
      obtain ⟨a, b⟩ := ih (n / 2) hk h0
      constructor
      · rw [pow_succ]; omega
      · rw [pow_succ]; omega

theorem log2Bits_spec (k : ℕ) : ∀ n : ℕ, n ≠ 0 → n < 2 ^ 2 ^ k →
    2 ^ log2Bits k n ≤ n ∧ n < 2 ^ (log2Bits k n + 1) := by
  induction k with
  | zero =>
    intro n h1 h2
    have : n = 1 := by
      simp at h2
      omega
    subst this
    simp [log2Bits]
  | succ k ih =>
    intro n h1 h2
    have hB : 0 < 2 ^ 2 ^ k := by positivity
    have hsq : 2 ^ 2 ^ (k + 1) = 2 ^ 2 ^ k * 2 ^ 2 ^ k := by
      rw [← pow_add, pow_succ]
      congr 1
      omega
    unfold log2Bits
    split_ifs with hc
    · have hm0 : n / 2 ^ 2 ^ k ≠ 0 := by
        have := Nat.div_pos hc hB
        omega
      have hmlt : n / 2 ^ 2 ^ k < 2 ^ 2 ^ k := by
        apply Nat.div_lt_of_lt_mul
        rw [← hsq]
        exact h2
      obtain ⟨a, b⟩ := ih _ hm0 hmlt
      have h3 : 2 ^ 2 ^ k * (n / 2 ^ 2 ^ k) ≤ n := Nat.mul_div_le n _
      have h4 : n < 2 ^ 2 ^ k * (n / 2 ^ 2 ^ k + 1) := Nat.lt_mul_div_succ n hB
      constructor
      · rw [pow_add]
        exact le_trans (Nat.mul_le_mul_left _ a) h3
      · rw [show 2 ^ k + log2Bits k (n / 2 ^ 2 ^ k) + 1
            = 2 ^ k + (log2Bits k (n / 2 ^ 2 ^ k) + 1) by omega, pow_add]
        exact lt_of_lt_of_le h4 (Nat.mul_le_mul_left _ b)
    · exact ih n h1 (by omega)

theorem natLog2_spec (n : ℕ) (h : n ≠ 0) :
    2 ^ natLog2 n ≤ n ∧ n < 2 ^ (natLog2 n + 1) := by
  unfold natLog2
  split_ifs with hc
  · exact log2Bits_spec 8 n h hc
  · exact log2Aux_spec n n le_rfl h

theorem ilog2_spec (x : ℚ) (hx : x ≠ 0) :
    (2 : ℚ) ^ ilog2 x ≤ |x| ∧ |x| < (2 : ℚ) ^ (ilog2 x + 1) := by
  have hnum : x.num.natAbs ≠ 0 := by
    simpa [Int.natAbs_eq_zero] using hx
  have hden : x.den ≠ 0 := x.den_nz
  obtain ⟨a1, a2⟩ := natLog2_spec _ hnum
  obtain ⟨b1, b2⟩ := natLog2_spec _ hden
  have habs : |x| = (x.num.natAbs : ℚ) / (x.den : ℚ) := by
    conv_lhs => rw [← Rat.num_div_den x]
    rw [abs_div, Nat.abs_cast, Nat.cast_natAbs, Int.cast_abs]
  have hdpos : (0 : ℚ) < x.den := by exact_mod_cast Nat.pos_of_ne_zero hden
  set la := natLog2 x.num.natAbs with hla
  set lb := natLog2 x.den with hlb
  have A1 : ((2 : ℚ) ^ la) ≤ (x.num.natAbs : ℚ) := by exact_mod_cast a1
  have A2 : (x.num.natAbs : ℚ) < (2 : ℚ) ^ (la + 1) := by exact_mod_cast a2
  have B1 : ((2 : ℚ) ^ lb) ≤ (x.den : ℚ) := by exact_mod_cast b1
  have B2 : (x.den : ℚ) < (2 : ℚ) ^ (lb + 1) := by exact_mod_cast b2
  have two_pos : ∀ k : ℤ, (0 : ℚ) < 2 ^ k := fun k => zpow_pos (by norm_num) k
  have up : |x| < (2 : ℚ) ^ ((la : ℤ) - lb + 1) := by
    rw [habs, div_lt_iff₀ hdpos]
    have : (2 : ℚ) ^ ((la : ℤ) - lb + 1) = 2 ^ (la + 1) / 2 ^ lb := by
      rw [show ((la : ℤ) - lb + 1) = ((la + 1 : ℕ) : ℤ) - (lb : ℕ) by push_cast; ring]
      rw [zpow_sub₀ (by norm_num : (2 : ℚ) ≠ 0), zpow_natCast, zpow_natCast]
    rw [this, div_mul_eq_mul_div, lt_div_iff₀ (by positivity)]
    calc (x.num.natAbs : ℚ) * 2 ^ lb < 2 ^ (la + 1) * 2 ^ lb := by
          apply mul_lt_mul_of_pos_right A2 (by positivity)
      _ ≤ 2 ^ (la + 1) * x.den := by
          apply mul_le_mul_of_nonneg_left B1 (by positivity)
  have low : (2 : ℚ) ^ ((la : ℤ) - lb - 1) ≤ |x| := by
    rw [habs, le_div_iff₀ hdpos]
    have : (2 : ℚ) ^ ((la : ℤ) - lb - 1) = 2 ^ la / 2 ^ (lb + 1) := by
      rw [show ((la : ℤ) - lb - 1) = ((la : ℕ) : ℤ) - ((lb + 1 : ℕ) : ℤ) by push_cast; ring]
      rw [zpow_sub₀ (by norm_num : (2 : ℚ) ≠ 0), zpow_natCast, zpow_natCast]
    rw [this, div_mul_eq_mul_div, div_le_iff₀ (by positivity)]
    calc (2 : ℚ) ^ la * x.den ≤ 2 ^ la * 2 ^ (lb + 1) := by
          apply mul_le_mul_of_nonneg_left B2.le (by positivity)
      _ ≤ x.num.natAbs * 2 ^ (lb + 1) := by
          apply mul_le_mul_of_nonneg_right A1 (by positivity)
  unfold ilog2
  simp only
  split_ifs with h
  · exact ⟨h, up⟩
  · refine ⟨low, ?_⟩
    rw [sub_add_cancel]
    exact lt_of_not_le h

theorem two_zpow_pos (k : ℤ) : (0 : ℚ) < 2 ^ k := zpow_pos (by norm_num) k

theorem roundEven_intCast (n : ℤ) : roundEven (n : ℚ) = n := by
  unfold roundEven
  simp

theorem floor_le_roundEven (q : ℚ) : ⌊q⌋ ≤ roundEven q := by
  unfold roundEven
  simp only
  split_ifs <;> omega

theorem roundEven_le_floor_succ (q : ℚ) : roundEven q ≤ ⌊q⌋ + 1 := by
  unfold roundEven
  simp only
  split_ifs <;> omega

theorem roundEven_mono {a b : ℚ} (h : a ≤ b) : roundEven a ≤ roundEven b := by
  have hf : ⌊a⌋ ≤ ⌊b⌋ := Int.floor_mono h
  rcases lt_or_eq_of_le hf with hlt | heq
  · calc roundEven a ≤ ⌊a⌋ + 1 := roundEven_le_floor_succ a
      _ ≤ ⌊b⌋ := hlt
      _ ≤ roundEven b := floor_le_roundEven b
  · unfold roundEven
    simp only
    rw [← heq]
    have hr : a - ⌊a⌋ ≤ b - ⌊a⌋ := by linarith
    split_ifs <;> first | omega | (exfalso; linarith)

theorem roundEven_nonneg {q : ℚ} (h : 0 ≤ q) : 0 ≤ roundEven q := by
  have := roundEven_mono h
  rwa [show (0 : ℚ) = ((0 : ℤ) : ℚ) by simp, roundEven_intCast] at this

theorem roundFloat_zero (prec : ℕ) (emin : ℤ) : roundFloat prec emin 0 = 0 := by
  simp [roundFloat]

theorem roundFloat_nonneg (prec : ℕ) (emin : ℤ) {x : ℚ} (h : 0 ≤ x) :
    0 ≤ roundFloat prec emin x := by
  unfold roundFloat
  split_ifs with h0
  · exact le_rfl
  · simp only
    apply mul_nonneg
    · exact_mod_cast roundEven_nonneg (div_nonneg h (two_zpow_pos _).le)
    · exact (two_zpow_pos _).le

/-- The scaled significand of a positive number stays below `2 ^ prec`. -/
theorem scaled_lt (prec : ℕ) (emin : ℤ) {x : ℚ} (hx : 0 < x) :
    x / 2 ^ (max (ilog2 x) emin - (prec - 1)) < 2 ^ prec := by
  have hs := (ilog2_spec x hx.ne').2
  rw [abs_of_pos hx] at hs
  rw [div_lt_iff₀ (two_zpow_pos _)]
  have : (2 : ℚ) ^ prec * 2 ^ (max (ilog2 x) emin - (prec - 1)) = 2 ^ (max (ilog2 x) emin + 1) := by
    rw [← zpow_natCast, ← zpow_add₀ (by norm_num : (2 : ℚ) ≠ 0)]
    congr 1; ring
  rw [this]
  exact lt_of_lt_of_le hs (zpow_le_zpow_right₀ (by norm_num) (by have := le_max_left (ilog2 x) emin; omega))

theorem roundFloat_le_next (prec : ℕ) (emin : ℤ) {x : ℚ} (hx : 0 < x) :
    roundFloat prec emin x ≤ 2 ^ (max (ilog2 x) emin + 1) := by
  unfold roundFloat
  rw [if_neg hx.ne']
  simp only
  have h1 : roundEven (x / 2 ^ (max (ilog2 x) emin - (prec - 1))) ≤ (2 : ℤ) ^ prec := by
    have := roundEven_mono (scaled_lt prec emin hx).le
    rwa [show (2 : ℚ) ^ prec = (((2 : ℤ) ^ prec : ℤ) : ℚ) by push_cast; rfl, roundEven_intCast] at this
  have h2 : ((roundEven (x / 2 ^ (max (ilog2 x) emin - (prec - 1))) : ℤ) : ℚ) ≤ (2 : ℚ) ^ prec := by
    exact_mod_cast h1
  calc _ ≤ (2 : ℚ) ^ prec * 2 ^ (max (ilog2 x) emin - (prec - 1)) :=
        mul_le_mul_of_nonneg_right h2 (two_zpow_pos _).le
    _ = 2 ^ (max (ilog2 x) emin + 1) := by
        rw [← zpow_natCast, ← zpow_add₀ (by norm_num : (2 : ℚ) ≠ 0)]
        congr 1; ring

theorem le_roundFloat_normal (prec : ℕ) (emin : ℤ) (hp : 1 ≤ prec) {x : ℚ} (hx : 0 < x)
    (hn : emin ≤ ilog2 x) : 2 ^ ilog2 x ≤ roundFloat prec emin x := by
  unfold roundFloat
  rw [if_neg hx.ne']
  simp only
  rw [max_eq_left hn]
  have hs := (ilog2_spec x hx.ne').1
  rw [abs_of_pos hx] at hs
  have hq : ((2 : ℤ) ^ (prec - 1) : ℤ) ≤ roundEven (x / 2 ^ (ilog2 x - (prec - 1))) := by
    have h3 : (((2 : ℤ) ^ (prec - 1) : ℤ) : ℚ) ≤ x / 2 ^ (ilog2 x - (prec - 1)) := by
      rw [le_div_iff₀ (two_zpow_pos _)]
      push_cast
      rw [← zpow_natCast, ← zpow_add₀ (by norm_num : (2 : ℚ) ≠ 0)]
      have : ((prec - 1 : ℕ) : ℤ) + (ilog2 x - (prec - 1)) = ilog2 x := by
        rw [Nat.cast_sub hp]; push_cast; ring
      rw [this]; exact hs
    have := roundEven_mono h3
    rwa [roundEven_intCast] at this
  have hq' : ((2 : ℚ) ^ (prec - 1)) ≤ ((roundEven (x / 2 ^ (ilog2 x - (prec - 1))) : ℤ) : ℚ) := by
    exact_mod_cast hq
  calc (2 : ℚ) ^ ilog2 x = 2 ^ (prec - 1) * 2 ^ (ilog2 x - (prec - 1)) := by
        rw [← zpow_natCast, ← zpow_add₀ (by norm_num : (2 : ℚ) ≠ 0)]
        congr 1
        rw [Nat.cast_sub hp]; push_cast; ring
    _ ≤ _ := mul_le_mul_of_nonneg_right hq' (two_zpow_pos _).le

theorem ilog2_mono {x y : ℚ} (hx : 0 < x) (h : x ≤ y) : ilog2 x ≤ ilog2 y := by
  have hy : 0 < y := lt_of_lt_of_le hx h
  have a := (ilog2_spec x hx.ne').1
  have b := (ilog2_spec y hy.ne').2
  rw [abs_of_pos hx] at a
  rw [abs_of_pos hy] at b
  have : (2 : ℚ) ^ ilog2 x < 2 ^ (ilog2 y + 1) := lt_of_le_of_lt (le_trans a h) b
  have := (zpow_lt_zpow_iff_right₀ (by norm_num : (1 : ℚ) < 2)).1 this
  omega

/-- Rounding is monotone on the non-negative rationals. -/
theorem roundFloat_mono (prec : ℕ) (emin : ℤ) (hp : 1 ≤ prec) {x y : ℚ} (hx : 0 ≤ x)
    (h : x ≤ y) : roundFloat prec emin x ≤ roundFloat prec emin y := by
  rcases eq_or_lt_of_le hx with h0 | hpos
  · rw [← h0, roundFloat_zero]
    exact roundFloat_nonneg prec emin (le_trans hx h)
  have hy : 0 < y := lt_of_lt_of_le hpos h
  have hl := ilog2_mono hpos h
  have hm : max (ilog2 x) emin ≤ max (ilog2 y) emin := max_le_max hl le_rfl
  rcases eq_or_lt_of_le hm with heq | hlt
  · unfold roundFloat
    rw [if_neg hpos.ne', if_neg hy.ne']
    simp only
    rw [heq]
    apply mul_le_mul_of_nonneg_right _ (two_zpow_pos _).le
    have : roundEven (x / 2 ^ (max (ilog2 y) emin - (prec - 1)))
        ≤ roundEven (y / 2 ^ (max (ilog2 y) emin - (prec - 1))) :=
      roundEven_mono (div_le_div_of_nonneg_right h (two_zpow_pos _).le)
    exact_mod_cast this
  · have hny : emin ≤ ilog2 y := by
      by_contra hc
      rw [max_eq_right (by omega : ilog2 y ≤ emin)] at hlt
      have := le_max_right (ilog2 x) emin
      omega
    have hey : max (ilog2 y) emin = ilog2 y := max_eq_left hny
    calc roundFloat prec emin x ≤ 2 ^ (max (ilog2 x) emin + 1) := roundFloat_le_next prec emin hpos
      _ ≤ 2 ^ ilog2 y := zpow_le_zpow_right₀ (by norm_num) (by omega)
      _ ≤ roundFloat prec emin y := le_roundFloat_normal prec emin hp hy hny

theorem roundEven_neg (q : ℚ) : roundEven (-q) = -roundEven q := by
  by_cases hq : (⌊q⌋ : ℚ) = q
  · rw [← hq, ← Int.cast_neg, roundEven_intCast, roundEven_intCast]
  · have h1 : (⌊q⌋ : ℚ) ≤ q := Int.floor_le q
    have h2 : q < ⌊q⌋ + 1 := Int.lt_floor_add_one q
    have h3 : (⌊q⌋ : ℚ) < q := lt_of_le_of_ne h1 hq
    have hfl : ⌊-q⌋ = -⌊q⌋ - 1 := by
      rw [Int.floor_eq_iff]
      push_cast
      constructor <;> linarith
    unfold roundEven
    simp only
    rw [hfl]
    push_cast
    split_ifs <;> first | omega | (exfalso; linarith)

theorem ilog2_neg (x : ℚ) : ilog2 (-x) = ilog2 x := by
  unfold ilog2
  simp

theorem roundFloat_neg (prec : ℕ) (emin : ℤ) (x : ℚ) :
    roundFloat prec emin (-x) = -roundFloat prec emin x := by
  unfold roundFloat
  by_cases h : x = 0
  · simp [h]
  · rw [if_neg h, if_neg (neg_ne_zero.mpr h)]
    simp only
    rw [ilog2_neg, neg_div, roundEven_neg]
    push_cast
    ring

theorem roundFloat_nonpos (prec : ℕ) (emin : ℤ) {x : ℚ} (h : x ≤ 0) :
    roundFloat prec emin x ≤ 0 := by
  have := roundFloat_nonneg prec emin (neg_nonneg.mpr h)
  rw [roundFloat_neg] at this
  linarith

/-- Rounding to a floating-point format is monotone. -/
theorem roundFloat_monotone (prec : ℕ) (emin : ℤ) (hp : 1 ≤ prec) {x y : ℚ} (h : x ≤ y) :
    roundFloat prec emin x ≤ roundFloat prec emin y := by
  rcases le_total 0 x with hx | hx
  · exact roundFloat_mono prec emin hp hx h
  · rcases le_total y 0 with hy | hy
    · have := roundFloat_mono prec emin hp (neg_nonneg.mpr hy) (neg_le_neg h)
      rw [roundFloat_neg, roundFloat_neg] at this
      linarith
    · exact le_trans (roundFloat_nonpos prec emin hx) (roundFloat_nonneg prec emin hy)

/-- A significand of at most `prec` bits times a power of two within the exponent range
is a fixed point of rounding. -/
theorem roundFloat_dyadic_lt (prec : ℕ) (emin : ℤ) (m : ℕ) (j : ℤ)
    (hm : m < 2 ^ prec) (hj : emin - (prec - 1) ≤ j) :
    roundFloat prec emin (m * 2 ^ j) = m * 2 ^ j := by
  rcases Nat.eq_zero_or_pos m with h0 | hpos
  · simp [h0, roundFloat_zero]
  have hy : (0 : ℚ) < m * 2 ^ j := mul_pos (by exact_mod_cast hpos) (two_zpow_pos j)
  have hs := (ilog2_spec _ hy.ne').1
  rw [abs_of_pos hy] at hs
  have hlt : (m : ℚ) * 2 ^ j < 2 ^ ((prec : ℤ) + j) := by
    rw [zpow_add₀ (by norm_num : (2 : ℚ) ≠ 0), zpow_natCast]
    apply mul_lt_mul_of_pos_right _ (two_zpow_pos j)
    exact_mod_cast hm
  have he : ilog2 ((m : ℚ) * 2 ^ j) < prec + j :=
    (zpow_lt_zpow_iff_right₀ (by norm_num : (1 : ℚ) < 2)).1 (lt_of_le_of_lt hs hlt)
  set e := max (ilog2 ((m : ℚ) * 2 ^ j)) emin with he'
  have hle : e - (prec - 1) ≤ j := by
    have : e ≤ prec + j - 1 := max_le (by omega) (by omega)
    omega
  obtain ⟨d, hd⟩ := Int.eq_ofNat_of_zero_le (by omega : 0 ≤ j - (e - (prec - 1)))
  have hjd : j = (e - (prec - 1)) + d := by omega
  unfold roundFloat
  rw [if_neg hy.ne']
  simp only
  rw [← he']
  have hq : (m : ℚ) * 2 ^ j / 2 ^ (e - (prec - 1)) = ((m * 2 ^ d : ℤ) : ℚ) := by
    rw [div_eq_iff (two_zpow_pos _).ne']
    push_cast
    rw [mul_assoc, ← zpow_natCast, ← zpow_add₀ (by norm_num : (2 : ℚ) ≠ 0)]
    congr 2
    omega
  rw [hq, roundEven_intCast]
  push_cast
  rw [mul_assoc, ← zpow_natCast, ← zpow_add₀ (by norm_num : (2 : ℚ) ≠ 0)]
  congr 2
  omega

theorem roundFloat_dyadic (prec : ℕ) (emin : ℤ) (hp : 1 ≤ prec) (m : ℕ) (j : ℤ)
    (hm : m ≤ 2 ^ prec) (hj : emin - (prec - 1) ≤ j) :
    roundFloat prec emin (m * 2 ^ j) = m * 2 ^ j := by
  rcases lt_or_eq_of_le hm with hlt | heq
  · exact roundFloat_dyadic_lt prec emin m j hlt hj
  · have hre : (m : ℚ) * 2 ^ j = ((2 ^ (prec - 1) : ℕ) : ℚ) * 2 ^ (j + 1) := by
      rw [heq]
      push_cast
      rw [zpow_add₀ (by norm_num : (2 : ℚ) ≠ 0), zpow_one]
      have : (2 : ℚ) ^ prec = 2 ^ (prec - 1) * 2 := by
        rw [← pow_succ]
        congr 1
        omega
      rw [this]
      ring
    rw [hre]
    exact roundFloat_dyadic_lt prec emin _ _
      (Nat.pow_lt_pow_right (by norm_num) (by omega)) (by omega)

/-- Rounding is idempotent: a rounded value is representable. -/
theorem roundFloat_idem (prec : ℕ) (emin : ℤ) (hp : 1 ≤ prec) (x : ℚ) :
    roundFloat prec emin (roundFloat prec emin x) = roundFloat prec emin x := by
  wlog hx : 0 ≤ x generalizing x
  · have := this (-x) (by linarith)
    rw [roundFloat_neg, roundFloat_neg] at this
    linarith
  rcases eq_or_lt_of_le hx with h0 | hpos
  · rw [← h0, roundFloat_zero, roundFloat_zero]
  have hn : 0 ≤ roundEven (x / 2 ^ (max (ilog2 x) emin - (prec - 1))) :=
    roundEven_nonneg (div_nonneg hx (two_zpow_pos _).le)
  have hb : roundEven (x / 2 ^ (max (ilog2 x) emin - (prec - 1))) ≤ (2 : ℤ) ^ prec := by
    have := roundEven_mono (scaled_lt prec emin hpos).le
    rwa [show (2 : ℚ) ^ prec = (((2 : ℤ) ^ prec : ℤ) : ℚ) by push_cast; rfl, roundEven_intCast] at this
  obtain ⟨m, hm⟩ := Int.eq_ofNat_of_zero_le hn
  have hval : roundFloat prec emin x = (m : ℚ) * 2 ^ (max (ilog2 x) emin - (prec - 1)) := by
    unfold roundFloat
    rw [if_neg hpos.ne']
    simp only
    rw [hm]
    simp
  rw [hval]
  apply roundFloat_dyadic prec emin hp
  · rw [hm] at hb
    exact_mod_cast hb
  · have := le_max_right (ilog2 x) emin
    omega

/-! ## Rounding on numerators -/

theorem ilog2_unique {x : ℚ} {e : ℤ} (hx : 0 < x) (h1 : (2 : ℚ) ^ e ≤ x)
    (h2 : x < (2 : ℚ) ^ (e + 1)) : ilog2 x = e := by
  obtain ⟨a, b⟩ := ilog2_spec x hx.ne'
  rw [abs_of_pos hx] at a b
  have c1 : (2 : ℚ) ^ ilog2 x < 2 ^ (e + 1) := lt_of_le_of_lt a h2
  have c2 : (2 : ℚ) ^ e < 2 ^ (ilog2 x + 1) := lt_of_le_of_lt h1 b
  have d1 := (zpow_lt_zpow_iff_right₀ (by norm_num : (1 : ℚ) < 2)).1 c1
  have d2 := (zpow_lt_zpow_iff_right₀ (by norm_num : (1 : ℚ) < 2)).1 c2
  omega

/-- Rounding a quotient to the nearest integer, from the quotient and remainder of the
division. -/
theorem roundEven_divMod (B q r : ℕ) (hB : 0 < B) (hr : r < B) :
    roundEven (((B * q + r : ℕ) : ℚ) / B) =
      ((if 2 * r < B then q else if B < 2 * r then q + 1
        else if q % 2 = 0 then q else q + 1 : ℕ) : ℤ) := by
  have hBq : (0 : ℚ) < B := by exact_mod_cast hB
  have hrq : (r : ℚ) < B := by exact_mod_cast hr
  have hr0 : (0 : ℚ) ≤ r := Nat.cast_nonneg _
  have hquot : ((B * q + r : ℕ) : ℚ) / B = q + r / B := by
    push_cast
    field_simp
    ring
  have hfr0 : (0 : ℚ) ≤ r / B := div_nonneg hr0 hBq.le
  have hfr1 : (r : ℚ) / B < 1 := (div_lt_one hBq).mpr hrq
  have hfloor : ⌊((B * q + r : ℕ) : ℚ) / B⌋ = (q : ℤ) := by
    rw [Int.floor_eq_iff, hquot, Int.cast_natCast]
    constructor <;> linarith
  have hfrac : ((B * q + r : ℕ) : ℚ) / B - ((q : ℤ) : ℚ) = r / B := by
    rw [hquot, Int.cast_natCast]
    ring
  have i1 : (r : ℚ) / B < 1 / 2 ↔ 2 * r < B := by
    rw [div_lt_iff₀ hBq]
    constructor
    · intro h
      have : (2 : ℚ) * r < B := by linarith
      exact_mod_cast this
    · intro h
      have : (2 : ℚ) * r < B := by exact_mod_cast h
      linarith
  have i2 : 1 / 2 < (r : ℚ) / B ↔ B < 2 * r := by
    rw [lt_div_iff₀ hBq]
    constructor
    · intro h
      have : (B : ℚ) < 2 * r := by linarith
      exact_mod_cast this
    · intro h
      have : (B : ℚ) < 2 * r := by exact_mod_cast h
      linarith
  have i3 : (q : ℤ) % 2 = 0 ↔ q % 2 = 0 := by omega
  unfold roundEven
  simp only [hfloor, hfrac, i1, i2, i3]
  split_ifs <;> simp

/-- Rounding to `float` computed on the numerator over `2 ^ 33`. -/
theorem f32_scaled (s : ℕ) (hs : 0 < s) :
    f32 ((s : ℚ) / 2 ^ 33) = (round24 s : ℚ) / 2 ^ 33 := by
  have hsq : (0 : ℚ) < s := by exact_mod_cast hs
  have hx : (0 : ℚ) < (s : ℚ) / 2 ^ 33 := by positivity
  have h33 : (0 : ℚ) < 2 ^ 33 := by positivity
  obtain ⟨a, b⟩ := natLog2_spec s hs.ne'
  have aq : (2 : ℚ) ^ natLog2 s ≤ s := by exact_mod_cast a
  have bq : (s : ℚ) < 2 ^ (natLog2 s + 1) := by exact_mod_cast b
  have hlog : ilog2 ((s : ℚ) / 2 ^ 33) = (natLog2 s : ℤ) - 33 := by
    apply ilog2_unique hx
    · rw [show (natLog2 s : ℤ) - 33 = ((natLog2 s : ℕ) : ℤ) - ((33 : ℕ) : ℤ) by push_cast; ring,
        zpow_sub₀ (by norm_num : (2 : ℚ) ≠ 0), zpow_natCast, zpow_natCast]
      exact div_le_div_of_nonneg_right aq h33.le
    · rw [show (natLog2 s : ℤ) - 33 + 1 = ((natLog2 s + 1 : ℕ) : ℤ) - ((33 : ℕ) : ℤ)
          by push_cast; ring,
        zpow_sub₀ (by norm_num : (2 : ℚ) ≠ 0), zpow_natCast, zpow_natCast]
      exact div_lt_div_of_pos_right bq h33
  rcases Nat.lt_or_ge (natLog2 s) 24 with hL | hL
  · have hk : natLog2 s - 23 = 0 := by omega
    have hround : round24 s = s := by
      unfold round24
      simp [hk, Nat.mod_one]
    have hlt : s < 2 ^ 24 :=
      lt_of_lt_of_le b (Nat.pow_le_pow_right (by norm_num) (by omega))
    have e : (s : ℚ) / 2 ^ 33 = (s : ℚ) * 2 ^ (-33 : ℤ) := by
      rw [zpow_neg, div_eq_mul_inv]
      norm_num
    rw [hround, e]
    exact roundFloat_dyadic_lt 24 (-126) s (-33) hlt (by norm_num)
  · obtain ⟨k, hk⟩ : ∃ k : ℕ, natLog2 s - 23 = k := ⟨_, rfl⟩
    have hkz : ((natLog2 s : ℕ) : ℤ) - 33 - (((24 : ℕ) : ℤ) - 1) = ((k : ℕ) : ℤ) - ((33 : ℕ) : ℤ) := by
      push_cast
      omega
    have hu : (2 : ℚ) ^ (((natLog2 s : ℕ) : ℤ) - 33 - (((24 : ℕ) : ℤ) - 1))
        = ((2 ^ k : ℕ) : ℚ) / 2 ^ 33 := by
      rw [hkz, zpow_sub₀ (by norm_num : (2 : ℚ) ≠ 0), zpow_natCast, zpow_natCast]
      push_cast
      rfl
    have hB : 0 < 2 ^ k := by positivity
    have hBq : (0 : ℚ) < ((2 ^ k : ℕ) : ℚ) := by exact_mod_cast hB
    have hdm : 2 ^ k * (s / 2 ^ k) + s % 2 ^ k = s := Nat.div_add_mod s (2 ^ k)
    have hquot : (s : ℚ) / 2 ^ 33 / (((2 ^ k : ℕ) : ℚ) / 2 ^ 33)
        = ((2 ^ k * (s / 2 ^ k) + s % 2 ^ k : ℕ) : ℚ) / ((2 ^ k : ℕ) : ℚ) := by
      rw [hdm]
      field_simp
    have hre := roundEven_divMod (2 ^ k) (s / 2 ^ k) (s % 2 ^ k) hB (Nat.mod_lt _ hB)
    unfold f32 roundFloat
    rw [if_neg hx.ne']
    simp only
    rw [hlog, max_eq_left (by omega), hu, hquot, hre]
    unfold round24
    simp only [hk]
    rw [Int.cast_natCast, Nat.cast_mul]
    ring

/-! ## The two formats -/

theorem f32_monotone {x y : ℚ} (h : x ≤ y) : f32 x ≤ f32 y :=
  roundFloat_monotone 24 (-126) (by norm_num) h

theorem f64_monotone {x y : ℚ} (h : x ≤ y) : f64 x ≤ f64 y :=
  roundFloat_monotone 53 (-1022) (by norm_num) h

theorem f32_idem (x : ℚ) : f32 (f32 x) = f32 x :=
  roundFloat_idem 24 (-126) (by norm_num) x

theorem f64_idem (x : ℚ) : f64 (f64 x) = f64 x :=
  roundFloat_idem 53 (-1022) (by norm_num) x

theorem f32_zero : f32 0 = 0 := roundFloat_zero _ _

theorem f64_zero : f64 0 = 0 := roundFloat_zero _ _

theorem f32_one : f32 1 = 1 := by decide!

theorem f64_one : f64 1 = 1 := by decide!

theorem f64_two : f64 2 = 2 := by decide!

theorem f32_unit {x : ℚ} (h0 : 0 ≤ x) (h1 : x ≤ 1) : 0 ≤ f32 x ∧ f32 x ≤ 1 :=
  ⟨by simpa [f32_zero] using f32_monotone h0, by simpa [f32_one] using f32_monotone h1⟩

theorem f64_unit {x : ℚ} (h0 : 0 ≤ x) (h1 : x ≤ 1) : 0 ≤ f64 x ∧ f64 x ≤ 1 :=
  ⟨by simpa [f64_zero] using f64_monotone h0, by simpa [f64_one] using f64_monotone h1⟩

theorem tickDelta_eq : tickDelta = 8589935 / 8589934592 := by decide!

theorem tickDelta_pos : 0 < tickDelta := by rw [tickDelta_eq]; norm_num

theorem M_PI_eq : M_PI = 884279719003555 / 281474976710656 := by decide!

/-! ## `Racer::update` -/

theorem getPercentageCompleted_eq (r : Racer) :
    r.getPercentageCompleted = r.percentageCompleted := rfl

theorem update_fst (g : RaceState) (r : Racer) (delta : ℚ) : (r.update g delta).1 = g := by
  unfold Racer.update
  split_ifs <;> rfl

theorem update_noop (g : RaceState) (r : Racer) (delta : ℚ)
    (h : g.raceFinished = true ∨ r.percentageCompleted ≥ 1) : (r.update g delta).2 = r := by
  unfold Racer.update
  rw [if_pos h]

theorem update_easing (g : RaceState) (r : Racer) (delta : ℚ) :
    (r.update g delta).2.easingFunction = r.easingFunction := by
  unfold Racer.update
  split_ifs <;> rfl

/-- What an effective call of `update` leaves in `percentageCompleted`. -/
theorem update_progress (g : RaceState) (r : Racer) (delta : ℚ)
    (hg : g.raceFinished = false) (hp : r.percentageCompleted < 1) :
    (r.update g delta).2.percentageCompleted =
      if r.easingFunction (min (f32 (r.percentageCompleted + delta)) 1) ≥ 1 then 1
      else min (f32 (r.percentageCompleted + delta)) 1 := by
  unfold Racer.update
  have : ¬ (g.raceFinished = true ∨ r.percentageCompleted ≥ 1) := by
    rw [hg]; simp [hp]
  rw [if_neg this]

theorem update_progress_cases (g : RaceState) (r : Racer) (delta : ℚ)
    (hg : g.raceFinished = false) (hp : r.percentageCompleted < 1) :
    (r.update g delta).2.percentageCompleted = min (f32 (r.percentageCompleted + delta)) 1 ∨
      (r.update g delta).2.percentageCompleted = 1 := by
  rw [update_progress g r delta hg hp]
  split_ifs
  · exact Or.inr rfl
  · exact Or.inl rfl

/-- C8. `update(delta)` never changes the globals `raceStarted`, `raceFinished`, `winnerId`,
and when `raceFinished` is set or `percentageCompleted >= 1.0f` it changes nothing at all:
the racer, and with it `percentageCompleted` and `rect.x`, is returned as it was. -/
theorem update_frame (g : RaceState) (r : Racer) (delta : ℚ) :
    (r.update g delta).1 = g ∧
    (g.raceFinished = true ∨ r.percentageCompleted ≥ 1 →
      (r.update g delta).2 = r ∧
      (r.update g delta).2.percentageCompleted = r.percentageCompleted ∧
      (r.update g delta).2.rect.x = r.rect.x) := by
  refine ⟨update_fst g r delta, fun h => ?_⟩
  rw [update_noop g r delta h]
  exact ⟨rfl, rfl, rfl⟩

/-- C8, at concrete inputs: a finished race with a racer half way, and a running race with a
racer already at `1.0f`. -/
theorem update_frame_witness :
    ((Racer.mk0 5 125 64 32 (fun p => p) 0).update
        { raceFinished := true, raceStarted := true, winnerId := 2 } tickDelta).2.rect.x = 5 ∧
    (({ Racer.mk0 5 125 64 32 (fun p => p) 0 with percentageCompleted := 1 }).update
        { raceFinished := false, raceStarted := true, winnerId := -1 } tickDelta).2.percentageCompleted
      = 1 :=
  ⟨((update_frame { raceFinished := true, raceStarted := true, winnerId := 2 }
      (Racer.mk0 5 125 64 32 (fun p => p) 0) tickDelta).2 (Or.inl rfl)).2.2,
   ((update_frame { raceFinished := false, raceStarted := true, winnerId := -1 }
      { Racer.mk0 5 125 64 32 (fun p => p) 0 with percentageCompleted := 1 } tickDelta).2
      (Or.inr (le_refl (1 : ℚ)))).2.1⟩

/-- C5. For a racer whose progress is a `float` of at most `1.0` (in particular one in
`[0, 1]`), any easing function, either value of `raceFinished` and any `delta ≥ 0`, the
progress after `update(delta)` is at least the progress before and at most `1.0`. -/
theorem update_progress_monotone_bounded (g : RaceState) (r : Racer) (delta : ℚ)
    (hrep : f32 r.percentageCompleted = r.percentageCompleted)
    (h1 : r.percentageCompleted ≤ 1) (hd : 0 ≤ delta) :
    r.percentageCompleted ≤ (r.update g delta).2.percentageCompleted ∧
      (r.update g delta).2.percentageCompleted ≤ 1 := by
  by_cases h : g.raceFinished = true ∨ r.percentageCompleted ≥ 1
  · rw [update_noop g r delta h]
    exact ⟨le_rfl, h1⟩
  · have hg : g.raceFinished = false := by
      cases hgf : g.raceFinished
      · rfl
      · exact absurd (Or.inl hgf) h
    have hp : r.percentageCompleted < 1 := lt_of_not_le fun hc => h (Or.inr hc)
    have hle : r.percentageCompleted ≤ f32 (r.percentageCompleted + delta) := by
      have := f32_monotone (show r.percentageCompleted ≤ r.percentageCompleted + delta by linarith)
      rwa [hrep] at this
    rw [update_progress g r delta hg hp]
    split_ifs
    · exact ⟨h1, le_rfl⟩
    · exact ⟨le_min hle h1, min_le_right _ _⟩

/-- C5, at a concrete input: a racer half way along, ticked by `0.001f` in a running race. -/
theorem update_progress_monotone_bounded_witness :
    (1 / 2 : ℚ) ≤
      (({ Racer.mk0 5 125 64 32 (ease_in_out_back refLibM) 0 with
            percentageCompleted := 1 / 2 }).update
          { raceFinished := false, raceStarted := true, winnerId := -1 }
          tickDelta).2.percentageCompleted ∧
    (({ Racer.mk0 5 125 64 32 (ease_in_out_back refLibM) 0 with
            percentageCompleted := 1 / 2 }).update
          { raceFinished := false, raceStarted := true, winnerId := -1 }
          tickDelta).2.percentageCompleted ≤ 1 :=
  update_progress_monotone_bounded
    { raceFinished := false, raceStarted := true, winnerId := -1 }
    { Racer.mk0 5 125 64 32 (ease_in_out_back refLibM) 0 with percentageCompleted := 1 / 2 }
    tickDelta (by decide!) (by norm_num) tickDelta_pos.le

/-! ## Repeated ticks -/

theorem advance_succ_last (g : RaceState) (delta : ℚ) (n : ℕ) (r : Racer) :
    Racer.advance g delta (n + 1) r = ((Racer.advance g delta n r).update g delta).2 := by
  induction n generalizing r with
  | zero => rfl
  | succ k ih =>
    show Racer.advance g delta (k + 1) (r.update g delta).2 = _
    rw [ih]
    rfl

theorem advance_complete (g : RaceState) (delta : ℚ) (n : ℕ) (r : Racer)
    (h : r.percentageCompleted ≥ 1) : Racer.advance g delta n r = r := by
  induction n with
  | zero => rfl
  | succ k ih =>
    show Racer.advance g delta k (r.update g delta).2 = r
    rw [update_noop g r delta (Or.inr h), ih]

theorem advance_add (g : RaceState) (delta : ℚ) (a b : ℕ) (r : Racer) :
    Racer.advance g delta (a + b) r = Racer.advance g delta b (Racer.advance g delta a r) := by
  induction a generalizing r with
  | zero => simp [Racer.advance]
  | succ k ih =>
    rw [show k + 1 + b = (k + b) + 1 by omega]
    show Racer.advance g delta (k + b) (r.update g delta).2 = _
    rw [ih]
    rfl

theorem advance_easing (g : RaceState) (delta : ℚ) (n : ℕ) (r : Racer) :
    (Racer.advance g delta n r).easingFunction = r.easingFunction := by
  induction n with
  | zero => rfl
  | succ k ih => rw [advance_succ_last, update_easing, ih]

theorem accumulate_succ_last (n : ℕ) (p : ℚ) :
    accumulate (n + 1) p = min (f32 (accumulate n p + tickDelta)) 1 := by
  induction n generalizing p with
  | zero => rfl
  | succ k ih =>
    show accumulate (k + 1) (min (f32 (p + tickDelta)) 1) = _
    rw [ih]
    rfl

theorem accumulate_add (a b : ℕ) (p : ℚ) :
    accumulate (a + b) p = accumulate b (accumulate a p) := by
  induction a generalizing p with
  | zero => simp [accumulate]
  | succ k ih =>
    rw [show k + 1 + b = (k + b) + 1 by omega]
    show accumulate (k + b) (min (f32 (p + tickDelta)) 1) = _
    rw [ih]
    rfl

theorem step_from_one : min (f32 (1 + tickDelta)) 1 = 1 := by
  apply min_eq_right
  have := f32_monotone (show (1 : ℚ) ≤ 1 + tickDelta by linarith [tickDelta_pos])
  rwa [f32_one] at this

/-- The accumulated progress is a `float`, never falls and never exceeds `1.0`. -/
theorem accumulate_props (n : ℕ) : ∀ p : ℚ, f32 p = p → p ≤ 1 →
    f32 (accumulate n p) = accumulate n p ∧ p ≤ accumulate n p ∧ accumulate n p ≤ 1 := by
  induction n with
  | zero => intro p h1 h2; exact ⟨h1, le_rfl, h2⟩
  | succ k ih =>
    intro p h1 h2
    have hle : p ≤ f32 (p + tickDelta) := by
      have := f32_monotone (show p ≤ p + tickDelta by linarith [tickDelta_pos])
      rwa [h1] at this
    have hrep : f32 (min (f32 (p + tickDelta)) 1) = min (f32 (p + tickDelta)) 1 := by
      rcases le_total (f32 (p + tickDelta)) 1 with h | h
      · rw [min_eq_left h, f32_idem]
      · rw [min_eq_right h, f32_one]
    obtain ⟨a, b, c⟩ := ih (min (f32 (p + tickDelta)) 1) hrep (min_le_right _ _)
    exact ⟨a, le_trans (le_min hle h2) b, c⟩

theorem accumulate_le_of_le {j k : ℕ} (h : j ≤ k) : accumulate j 0 ≤ accumulate k 0 := by
  obtain ⟨d, rfl⟩ := Nat.exists_eq_add_of_le h
  rw [accumulate_add]
  obtain ⟨a, _, c⟩ := accumulate_props j 0 f32_zero (by norm_num)
  exact (accumulate_props d _ a c).2.1

/-- After `n` ticks of a running race the progress is the accumulated sum, unless the
easing sync has forced it to `1.0`. -/
theorem advance_cases (g : RaceState) (hg : g.raceFinished = false) (n : ℕ) :
    ∀ r : Racer, r.percentageCompleted ≤ 1 →
      (Racer.advance g tickDelta n r).percentageCompleted = accumulate n r.percentageCompleted ∨
      (Racer.advance g tickDelta n r).percentageCompleted = 1 := by
  induction n with
  | zero => intro r _; exact Or.inl rfl
  | succ k ih =>
    intro r hr
    rw [advance_succ_last, accumulate_succ_last]
    rcases ih r hr with h | h
    · rcases lt_or_le (Racer.advance g tickDelta k r).percentageCompleted 1 with hlt | hge
      · rcases update_progress_cases g _ tickDelta hg hlt with h2 | h2
        · left; rw [h2, h]
        · right; exact h2
      · rw [update_noop g _ tickDelta (Or.inr hge)]
        right
        have : accumulate k r.percentageCompleted ≤ 1 := by
          cases k with
          | zero => exact hr
          | succ j => rw [accumulate_succ_last]; exact min_le_right _ _
        rw [h] at hge ⊢
        exact le_antisymm this hge
    · right
      rw [update_noop g _ tickDelta (Or.inr h.ge)]
      exact h

/-- While the eased value stays below `1.0` the progress is exactly the accumulated sum. -/
theorem advance_no_sync (g : RaceState) (hg : g.raceFinished = false) (n : ℕ) (r : Racer)
    (hr : r.percentageCompleted ≤ 1)
    (hf : ∀ k, 1 ≤ k → k ≤ n → r.easingFunction (accumulate k r.percentageCompleted) < 1) :
    (Racer.advance g tickDelta n r).percentageCompleted = accumulate n r.percentageCompleted := by
  induction n with
  | zero => rfl
  | succ k ih =>
    have ihk := ih fun j h1 h2 => hf j h1 (by omega)
    rw [advance_succ_last, accumulate_succ_last]
    rcases lt_or_le (Racer.advance g tickDelta k r).percentageCompleted 1 with hlt | hge
    · rw [update_progress g _ tickDelta hg hlt, advance_easing, ihk, ← accumulate_succ_last]
      rw [if_neg (not_le.mpr (hf (k + 1) (by omega) le_rfl))]
    · rw [update_noop g _ tickDelta (Or.inr hge), ihk]
      rw [ihk] at hge
      have hle : accumulate k r.percentageCompleted ≤ 1 := by
        cases k with
        | zero => exact hr
        | succ j => rw [accumulate_succ_last]; exact min_le_right _ _
      have h1 : accumulate k r.percentageCompleted = 1 := le_antisymm hle hge
      rw [h1, step_from_one]

/-! ### The accumulated sum at the ticks that matter

The sum is evaluated on numerators over `2 ^ 33`. -/

theorem accumulateN_succ (d top k n : ℕ) :
    accumulateN d top (k + 1) n = accumulateN d top k (min (round24 (n + d)) top) := by
  show (if min (round24 (n + d)) top = 0 then accumulateN d top k 0
    else accumulateN d top k (min (round24 (n + d)) top)) = _
  split_ifs with h
  · rw [h]
  · rfl

/-- The accumulated progress computed on numerators over `2 ^ 33`, where `0.001f` is
`8589935 / 2 ^ 33` and `1.0f` is `2 ^ 33 / 2 ^ 33`. -/
theorem accumulate_scaled (k : ℕ) : ∀ n : ℕ,
    accumulate k ((n : ℚ) / 2 ^ 33) = (accumulateN 8589935 (2 ^ 33) k n : ℚ) / 2 ^ 33 := by
  induction k with
  | zero => intro n; rfl
  | succ k ih =>
    intro n
    have hsum : (n : ℚ) / 2 ^ 33 + tickDelta = ((n + 8589935 : ℕ) : ℚ) / 2 ^ 33 := by
      rw [tickDelta_eq, Nat.cast_add, add_div]
      norm_num
    have hmin : min ((round24 (n + 8589935) : ℚ) / 2 ^ 33) 1
        = ((min (round24 (n + 8589935)) (2 ^ 33) : ℕ) : ℚ) / 2 ^ 33 := by
      rw [show (1 : ℚ) = ((2 ^ 33 : ℕ) : ℚ) / 2 ^ 33 by norm_num, Nat.cast_min,
        min_div_div_right (by positivity)]
    rw [accumulateN_succ, ← ih, ← hmin, ← f32_scaled _ (by omega), ← hsum]
    rfl

set_option maxRecDepth 100000 in
theorem accN_639 : accumulateN 8589935 (2 ^ 33) 639 0 = 10720563 * 2 ^ 9 := by decide!

set_option maxRecDepth 100000 in
theorem accN_1000 :
    accumulateN 8589935 (2 ^ 33) 360 (2684335 * 2 ^ 11) = 4194265 * 2 ^ 11 := by decide!

/-- After 639 ticks the accumulated `float` sum is `10720563 / 2^24`, about `0.63899535`. -/
theorem accumulate_639 : accumulate 639 0 = 10720563 / 16777216 := by
  have h := accumulate_scaled 639 0
  rw [accN_639] at h
  rw [show (0 : ℚ) = ((0 : ℕ) : ℚ) / 2 ^ 33 by norm_num, h]
  norm_num

/-- After 640 ticks the accumulated `float` sum is `2684335 / 2^22`, about `0.63999534`. -/
theorem accumulate_640 : accumulate 640 0 = 2684335 / 4194304 := by
  rw [accumulate_succ_last, accumulate_639]
  decide!

/-- After 1000 ticks the accumulated `float` sum is `4194265 / 2^22`, about `0.99999070`. -/
theorem accumulate_1000 : accumulate 1000 0 = 4194265 / 4194304 := by
  have h := accumulate_scaled 360 (2684335 * 2 ^ 11)
  rw [accN_1000] at h
  rw [show 1000 = 640 + 360 by norm_num, accumulate_add, accumulate_640,
    show (2684335 / 4194304 : ℚ) = ((2684335 * 2 ^ 11 : ℕ) : ℚ) / 2 ^ 33 by norm_num, h]
  norm_num

/-- The 1001st tick reaches the clamp: the accumulated sum is `1.0`. -/
theorem accumulate_1001 : accumulate 1001 0 = 1 := by
  rw [accumulate_succ_last, accumulate_1000]
  decide!

/-! ## The easing functions -/

theorem M_PI_pos : 0 < M_PI := by rw [M_PI_eq]; norm_num

theorem constrain_unit (p : ℚ) : 0 ≤ constrain p 0 1 ∧ constrain p 0 1 ≤ 1 := by
  unfold constrain
  exact ⟨le_min (by norm_num) (le_max_left _ _), min_le_left _ _⟩

theorem constrain_le {p b : ℚ} (hb : 0 ≤ b) (h : p ≤ b) : constrain p 0 1 ≤ b := by
  unfold constrain
  exact le_trans (min_le_right _ _) (max_le hb h)

theorem constrain_zero : constrain 0 0 1 = 0 := by
  unfold constrain; norm_num

theorem constrain_one : constrain 1 0 1 = 1 := by
  unfold constrain; norm_num

/-- The argument handed to `cos` and `sin` grows with the progress and is never negative. -/
theorem sine_arg_range {q b : ℚ} (h0 : 0 ≤ q) (h : q ≤ b) :
    0 ≤ f64 (f64 (q * M_PI) / 2) ∧ f64 (f64 (q * M_PI) / 2) ≤ f64 (f64 (b * M_PI) / 2) := by
  constructor
  · have h1 : 0 ≤ f64 (q * M_PI) := by
      simpa [f64_zero] using f64_monotone (mul_nonneg h0 M_PI_pos.le)
    simpa [f64_zero] using f64_monotone (show (0 : ℚ) ≤ f64 (q * M_PI) / 2 by linarith)
  · apply f64_monotone
    have := f64_monotone (mul_le_mul_of_nonneg_right h M_PI_pos.le)
    linarith

theorem half_pi_arg : f64 (f64 (1 * M_PI) / 2) = M_PI / 2 := by decide!

theorem sine_arg_at_1000 :
    f64 (f64 (4194265 / 4194304 * M_PI) / 2) = 3537085986734815 / 2251799813685248 := by
  decide!

/-- With any `cos` that is at least `2^-20` on the arguments reached before progress
`4194265 / 2^22`, `ease_in_sine` stays below `1.0` up to that progress. -/
theorem ease_in_sine_lt_one (m : LibM)
    (hcos : ∀ x : ℚ, 0 ≤ x → x ≤ 3537085986734815 / 2251799813685248 → 1 / 2 ^ 20 ≤ m.cos x)
    (p : ℚ) (hp : p ≤ 4194265 / 4194304) : ease_in_sine m p < 1 := by
  unfold ease_in_sine
  simp only
  have hq := constrain_unit p
  have hq2 : constrain p 0 1 ≤ 4194265 / 4194304 := constrain_le (by norm_num) hp
  obtain ⟨a1, a2⟩ := sine_arg_range hq.1 hq2
  rw [sine_arg_at_1000] at a2
  have hc := hcos _ a1 a2
  have h1 : f64 (1 - m.cos (f64 (f64 (constrain p 0 1 * M_PI) / 2))) ≤ f64 (1 - 1 / 2 ^ 20) :=
    f64_monotone (by linarith)
  have e1 : f64 (1 - 1 / 2 ^ 20) = 1 - 1 / 2 ^ 20 := by decide!
  have e2 : f32 (1 - 1 / 2 ^ 20) = 1 - 1 / 2 ^ 20 := by decide!
  rw [e1] at h1
  have h2 := f32_monotone h1
  rw [e2] at h2
  exact lt_of_le_of_lt h2 (by norm_num)

/-- Progress under `ease_in_sine` is the accumulated sum through the first 1000 ticks,
whenever `cos` stays at least `2^-20` before the quarter turn is reached. -/
theorem ease_in_sine_no_sync (m : LibM)
    (hcos : ∀ x : ℚ, 0 ≤ x → x ≤ 3537085986734815 / 2251799813685248 → 1 / 2 ^ 20 ≤ m.cos x)
    (n : ℕ) (hn : n ≤ 1000) (x y w h id : ℤ) :
    (Racer.advance running tickDelta n
      (Racer.mk0 x y w h (ease_in_sine m) id)).percentageCompleted = accumulate n 0 := by
  apply advance_no_sync running rfl n (Racer.mk0 x y w h (ease_in_sine m) id)
    (by show (0 : ℚ) ≤ 1; norm_num)
  intro k _ hk
  apply ease_in_sine_lt_one m hcos
  show accumulate k 0 ≤ _
  rw [← accumulate_1000]
  exact accumulate_le_of_le (by omega)

/-! ### The reference library satisfies what is asked of a maths library -/

theorem refCos_lower (x : ℚ) (h0 : 0 ≤ x) (hx : x ≤ 3537085986734815 / 2251799813685248) :
    1 / 2 ^ 20 ≤ refCos x := by
  unfold refCos
  have e : f64 (1 / 2 ^ 20) = 1 / 2 ^ 20 := by decide!
  rw [← e]
  apply f64_monotone
  have hx2 : x ^ 2 ≤ (3537085986734815 / 2251799813685248) ^ 2 := by
    apply pow_le_pow_left₀ h0 hx
  rw [le_div_iff₀ (by have := M_PI_pos; positivity), M_PI_eq]
  norm_num at hx2 ⊢
  linarith

theorem refCos_unit (x : ℚ) (h0 : 0 ≤ x) (hx : x ≤ M_PI / 2) :
    0 ≤ refCos x ∧ refCos x ≤ 1 := by
  unfold refCos
  apply f64_unit
  · apply div_nonneg _ (by positivity)
    have : x ^ 2 ≤ (M_PI / 2) ^ 2 := pow_le_pow_left₀ h0 hx 2
    nlinarith
  · rw [div_le_one (by have := M_PI_pos; positivity)]
    nlinarith [sq_nonneg x]

theorem refSin_unit (x : ℚ) (h0 : 0 ≤ x) (hx : x ≤ M_PI / 2) :
    0 ≤ refSin x ∧ refSin x ≤ 1 := by
  unfold refSin
  exact refCos_unit _ (by linarith) (by linarith)

theorem refPow_two_unit (y : ℚ) (hy : y ≤ 0) : 0 ≤ refPow 2 y ∧ refPow 2 y ≤ 1 := by
  unfold refPow
  have hfr0 : 0 ≤ y - ⌊y⌋ := by linarith [Int.floor_le y]
  have hfr1 : y - ⌊y⌋ < 1 := by linarith [Int.lt_floor_add_one y]
  have hpos : (0 : ℚ) < 2 ^ ⌊y⌋ := two_zpow_pos _
  apply f64_unit
  · apply mul_nonneg hpos.le
    nlinarith
  · have hfl : ⌊y⌋ ≤ 0 := by
      have : ⌊y⌋ ≤ ⌊(0 : ℚ)⌋ := Int.floor_mono hy
      simpa using this
    rcases eq_or_lt_of_le hfl with h | h
    · have hy0 : 0 ≤ y := by
        have := Int.floor_le y
        rw [h] at this
        simpa using this
      have : y = 0 := le_antisymm hy hy0
      subst this
      norm_num
    · have h2 : (2 : ℚ) ^ ⌊y⌋ ≤ 2 ^ (-1 : ℤ) :=
        zpow_le_zpow_right₀ (by norm_num) (by omega)
      have h3 : (2 : ℚ) ^ (-1 : ℤ) = 1 / 2 := by norm_num
      rw [h3] at h2
      nlinarith

/-! ## Endpoints and range of the easing functions -/

/-- C6. With a maths library for which `cos 0 = 1`, `sin 0 = 0`, `pow(0, 2) = 0`, and
`cos`, `sin` at `M_PI / 2` are within `2^-26` of `0` and `1`: `ease_in_sine`,
`ease_out_sine` and `ease_in_out_exponential` return exactly `0` at `0` and exactly `1` at
`1`, and `ease_in_out_back` returns exactly `1` at `1`. -/
theorem easing_endpoints (m : LibM) (hc0 : m.cos 0 = 1) (hs0 : m.sin 0 = 0)
    (hc1 : |m.cos (M_PI / 2)| ≤ 1 / 2 ^ 26) (hs1 : |m.sin (M_PI / 2) - 1| ≤ 1 / 2 ^ 26)
    (hp0 : m.pow 0 2 = 0) :
    ease_in_sine m 0 = 0 ∧ ease_in_sine m 1 = 1 ∧
    ease_out_sine m 0 = 0 ∧ ease_out_sine m 1 = 1 ∧
    ease_in_out_exponential m 0 = 0 ∧ ease_in_out_exponential m 1 = 1 ∧
    ease_in_out_back m 1 = 1 := by
  have lo64 : f64 (1 - 1 / 2 ^ 26) = 1 - 1 / 2 ^ 26 := by decide!
  have hi64 : f64 (1 + 1 / 2 ^ 26) = 1 + 1 / 2 ^ 26 := by decide!
  have lo32 : f32 (1 - 1 / 2 ^ 26) = 1 := by decide!
  have hi32 : f32 (1 + 1 / 2 ^ 26) = 1 := by decide!
  obtain ⟨c_lo, c_hi⟩ := abs_le.mp hc1
  obtain ⟨s_lo, s_hi⟩ := abs_le.mp hs1
  refine ⟨?_, ?_, ?_, ?_, ?_, ?_, ?_⟩
  · unfold ease_in_sine
    simp only [constrain_zero, zero_mul, f64_zero, zero_div, hc0, sub_self, f32_zero]
  · unfold ease_in_sine
    simp only [constrain_one, half_pi_arg]
    apply le_antisymm
    · have h1 := f64_monotone (show 1 - m.cos (M_PI / 2) ≤ 1 + 1 / 2 ^ 26 by linarith)
      rw [hi64] at h1
      have h2 := f32_monotone h1
      rwa [hi32] at h2
    · have h1 := f64_monotone (show 1 - 1 / 2 ^ 26 ≤ 1 - m.cos (M_PI / 2) by linarith)
      rw [lo64] at h1
      have h2 := f32_monotone h1
      rwa [lo32] at h2
  · unfold ease_out_sine
    simp only [constrain_zero, zero_mul, f64_zero, zero_div, hs0, f32_zero]
  · unfold ease_out_sine
    simp only [constrain_one, half_pi_arg]
    apply le_antisymm
    · have h2 := f32_monotone (show m.sin (M_PI / 2) ≤ 1 + 1 / 2 ^ 26 by linarith)
      rwa [hi32] at h2
    · have h2 := f32_monotone (show 1 - 1 / 2 ^ 26 ≤ m.sin (M_PI / 2) by linarith)
      rwa [lo32] at h2
  · unfold ease_in_out_exponential
    simp [constrain_zero]
  · unfold ease_in_out_exponential
    simp [constrain_one]
  · unfold ease_in_out_back
    have e1 : f32 (f32 (2 * 1) - 2) = 0 := by decide!
    simp only [constrain_one, e1, hp0, zero_mul, f64_zero, zero_add, f64_two]
    norm_num [f64_one, f32_one]

/-- C6, for the reference library. -/
theorem easing_endpoints_witness :
    ease_in_sine refLibM 0 = 0 ∧ ease_in_sine refLibM 1 = 1 ∧
    ease_out_sine refLibM 0 = 0 ∧ ease_out_sine refLibM 1 = 1 ∧
    ease_in_out_exponential refLibM 0 = 0 ∧ ease_in_out_exponential refLibM 1 = 1 ∧
    ease_in_out_back refLibM 1 = 1 :=
  easing_endpoints refLibM (by decide!) (by decide!) (by decide!) (by decide!) (by decide!)

/-- C7, refuted as stated: at the `float` input `0.25` the value of `ease_in_out_back` is
`-26131 / 2^18`, about `-0.0997`, below `0`. -/
theorem ease_in_out_back_negative :
    (0 : ℚ) ≤ 1 / 4 ∧ (1 / 4 : ℚ) ≤ 1 ∧
    ease_in_out_back refLibM (1 / 4) = -26131 / 262144 ∧
    ¬ (0 ≤ ease_in_out_back refLibM (1 / 4)) := by
  have e : ease_in_out_back refLibM (1 / 4) = -26131 / 262144 := by decide!
  refine ⟨by norm_num, by norm_num, e, ?_⟩
  rw [e]
  norm_num

/-- The dip of `ease_in_out_back` does not depend on the library: any `pow` that squares
`0.5` exactly gives the same negative value at `0.25`. -/
theorem ease_in_out_back_quarter (m : LibM) (hp : m.pow (1 / 2) 2 = 1 / 4) :
    ease_in_out_back m (1 / 4) = -26131 / 262144 := by
  unfold ease_in_out_back
  have e0 : constrain (1 / 4) 0 1 = 1 / 4 := by unfold constrain; norm_num
  have e1 : f32 (2 * (1 / 4)) = 1 / 2 := by decide!
  simp only [e0, e1, hp]
  rw [if_pos (by norm_num)]
  decide!

/-- C7, amended. With a maths library whose `cos` and `sin` stay in `[0, 1]` on
`[0, M_PI / 2]` and whose `pow(2, y)` stays in `[0, 1]` for `y ≤ 0`: for every input
(`constrain` clamps it to `[0, 1]`) `ease_in_sine`, `ease_out_sine` and
`ease_in_out_exponential` return a value in `[0, 1]`, and `ease_in_out_back` returns a value
of at most `1`. -/
theorem easing_range (m : LibM)
    (hcos : ∀ x : ℚ, 0 ≤ x → x ≤ M_PI / 2 → 0 ≤ m.cos x ∧ m.cos x ≤ 1)
    (hsin : ∀ x : ℚ, 0 ≤ x → x ≤ M_PI / 2 → 0 ≤ m.sin x ∧ m.sin x ≤ 1)
    (hpow : ∀ y : ℚ, y ≤ 0 → 0 ≤ m.pow 2 y ∧ m.pow 2 y ≤ 1) (p : ℚ) :
    (0 ≤ ease_in_sine m p ∧ ease_in_sine m p ≤ 1) ∧
    (0 ≤ ease_out_sine m p ∧ ease_out_sine m p ≤ 1) ∧
    (0 ≤ ease_in_out_exponential m p ∧ ease_in_out_exponential m p ≤ 1) ∧
    ease_in_out_back m p ≤ 1 := by
  obtain ⟨q0, q1⟩ := constrain_unit p
  obtain ⟨a0, a1⟩ := sine_arg_range q0 q1
  rw [half_pi_arg] at a1
  refine ⟨?_, ?_, ?_, ?_⟩
  · unfold ease_in_sine
    simp only
    obtain ⟨c0, c1⟩ := hcos _ a0 a1
    obtain ⟨d0, d1⟩ := f64_unit
      (show (0 : ℚ) ≤ 1 - m.cos (f64 (f64 (constrain p 0 1 * M_PI) / 2)) by linarith)
      (by linarith)
    exact f32_unit d0 d1
  · unfold ease_out_sine
    simp only
    obtain ⟨c0, c1⟩ := hsin _ a0 a1
    exact f32_unit c0 c1
  · unfold ease_in_out_exponential
    simp only
    split_ifs with h1 h2
    · exact ⟨q0, q1⟩
    · have e10 : f32 10 = 10 := by decide!
      have hy : f32 (f32 (20 * constrain p 0 1) - 10) ≤ 0 := by
        have := f32_monotone (show 20 * constrain p 0 1 ≤ 10 by linarith)
        rw [e10] at this
        simpa [f32_zero] using f32_monotone (show f32 (20 * constrain p 0 1) - 10 ≤ 0 by linarith)
      obtain ⟨c0, c1⟩ := hpow _ hy
      obtain ⟨d0, d1⟩ := f64_unit
        (show (0 : ℚ) ≤ 1 / 2 * m.pow 2 (f32 (f32 (20 * constrain p 0 1) - 10)) by linarith)
        (by linarith)
      exact f32_unit d0 d1
    · have em10 : f32 (-10) = -10 := by decide!
      have hy : f32 (f32 (-20 * constrain p 0 1) + 10) ≤ 0 := by
        have := f32_monotone (show -20 * constrain p 0 1 ≤ -10 by linarith)
        rw [em10] at this
        simpa [f32_zero] using f32_monotone (show f32 (-20 * constrain p 0 1) + 10 ≤ 0 by linarith)
      obtain ⟨c0, c1⟩ := hpow _ hy
      have g1 := f64_monotone (show (1 : ℚ) ≤ -m.pow 2 (f32 (f32 (-20 * constrain p 0 1) + 10)) + 2
        by linarith)
      have g2 := f64_monotone (show -m.pow 2 (f32 (f32 (-20 * constrain p 0 1) + 10)) + 2 ≤ 2
        by linarith)
      rw [f64_one] at g1
      rw [f64_two] at g2
      obtain ⟨d0, d1⟩ := f64_unit
        (show (0 : ℚ) ≤ 1 / 2 * f64 (-m.pow 2 (f32 (f32 (-20 * constrain p 0 1) + 10)) + 2)
          by linarith) (by linarith)
      exact f32_unit d0 d1
  · unfold ease_in_out_back
    exact min_le_right _ _

/-- C7 amended, for the reference library at the input `0.25`. -/
theorem easing_range_witness :
    (0 ≤ ease_in_sine refLibM (1 / 4) ∧ ease_in_sine refLibM (1 / 4) ≤ 1) ∧
    (0 ≤ ease_out_sine refLibM (1 / 4) ∧ ease_out_sine refLibM (1 / 4) ≤ 1) ∧
    (0 ≤ ease_in_out_exponential refLibM (1 / 4) ∧
      ease_in_out_exponential refLibM (1 / 4) ≤ 1) ∧
    ease_in_out_back refLibM (1 / 4) ≤ 1 :=
  easing_range refLibM refCos_unit refSin_unit refPow_two_unit (1 / 4)

/-! ## `ease_in_out_back` before its clamp -/

theorem back_c2_eq : back_c2 = 42515 / 16384 := by decide!

/-- With a `pow` that rounds squares on `[-1, 1]` correctly, `ease_in_out_back` stays below
`1.0` up to the progress `10720563 / 2^24`, about `0.638995`, reached after 639 ticks. -/
theorem ease_in_out_back_lt_one (m : LibM)
    (hpow : ∀ t : ℚ, -1 ≤ t → t ≤ 1 → m.pow t 2 = f64 (t * t))
    (p : ℚ) (hp : p ≤ 10720563 / 16777216) : ease_in_out_back m p < 1 := by
  unfold ease_in_out_back
  simp only
  obtain ⟨q0, q1⟩ := constrain_unit p
  have q2 : constrain p 0 1 ≤ 10720563 / 16777216 := constrain_le (by norm_num) hp
  generalize constrain p 0 1 = q at q0 q1 q2 ⊢
  apply lt_of_le_of_lt (min_le_left _ _)
  rw [back_c2_eq]
  have eK1 : f32 (42515 / 16384 + 1) = 58899 / 16384 := by decide!
  have eK : f32 (58899 / 16384 * 2) = 58899 / 8192 := by decide!
  have eh64 : f64 (1 / 2) = 1 / 2 := by decide!
  rw [eK1, eK]
  split_ifs with hlt
  · have ha0 : 0 ≤ f32 (2 * q) := by
      simpa [f32_zero] using f32_monotone (show (0 : ℚ) ≤ 2 * q by linarith)
    have ha1 : f32 (2 * q) ≤ 1 := by
      simpa [f32_one] using f32_monotone (show 2 * q ≤ 1 by linarith)
    rw [hpow _ (by linarith) ha1]
    obtain ⟨A0, A1⟩ := f64_unit (mul_nonneg ha0 ha0)
      (show f32 (2 * q) * f32 (2 * q) ≤ 1 by nlinarith)
    have hB : f32 (f32 (58899 / 8192 * q) - 42515 / 16384) ≤ 1 := by
      have e1 : f32 (58899 / 8192 * (1 / 2)) = 58899 / 16384 := by decide!
      have e2 : f32 (58899 / 16384 - 42515 / 16384) = 1 := by decide!
      have h1 := f32_monotone (show 58899 / 8192 * q ≤ 58899 / 8192 * (1 / 2) by linarith)
      rw [e1] at h1
      have h2 := f32_monotone (show f32 (58899 / 8192 * q) - 42515 / 16384
        ≤ 58899 / 16384 - 42515 / 16384 by linarith)
      rwa [e2] at h2
    have hAB : f64 (f32 (2 * q) * f32 (2 * q))
        * f32 (f32 (58899 / 8192 * q) - 42515 / 16384) ≤ 1 := by
      rcases le_total (f32 (f32 (58899 / 8192 * q) - 42515 / 16384)) 0 with hneg | hpos
      · nlinarith
      · nlinarith
    have h3 := f64_monotone hAB
    rw [f64_one] at h3
    have h4 := f64_monotone (show 1 / 2 * f64 (f64 (f32 (2 * q) * f32 (2 * q))
      * f32 (f32 (58899 / 8192 * q) - 42515 / 16384)) ≤ 1 / 2 by linarith)
    rw [eh64] at h4
    have h5 := f32_monotone h4
    rw [show f32 (1 / 2) = 1 / 2 by decide!] at h5
    exact lt_of_le_of_lt h5 (by norm_num)
  · have hge : 1 / 2 ≤ q := le_of_not_lt hlt
    have e1 : f32 (2 * (10720563 / 16777216)) = 10720563 / 8388608 := by decide!
    have e2 : f32 (10720563 / 8388608 - 2) = -6056653 / 8388608 := by decide!
    have e3 : f32 (1 - 2) = -1 := by decide!
    have hu0 : 1 ≤ f32 (2 * q) := by
      simpa [f32_one] using f32_monotone (show (1 : ℚ) ≤ 2 * q by linarith)
    have hu1 : f32 (2 * q) ≤ 10720563 / 8388608 := by
      have := f32_monotone (show 2 * q ≤ 2 * (10720563 / 16777216) by linarith)
      rwa [e1] at this
    have ht0 : -1 ≤ f32 (f32 (2 * q) - 2) := by
      have := f32_monotone (show (1 : ℚ) - 2 ≤ f32 (2 * q) - 2 by linarith)
      rwa [e3] at this
    have ht1 : f32 (f32 (2 * q) - 2) ≤ -6056653 / 8388608 := by
      have := f32_monotone (show f32 (2 * q) - 2 ≤ 10720563 / 8388608 - 2 by linarith)
      rwa [e2] at this
    rw [hpow _ ht0 (by linarith)]
    generalize f32 (f32 (2 * q) - 2) = t at ht0 ht1 ⊢
    have e4 : f64 (-6056653 / 8388608 * (-6056653 / 8388608))
        = 36683045562409 / 70368744177664 := by decide!
    have hA : 36683045562409 / 70368744177664 ≤ f64 (t * t) := by
      have := f64_monotone (show (-6056653 / 8388608 : ℚ) * (-6056653 / 8388608) ≤ t * t
        by nlinarith)
      rwa [e4] at this
    have e5 : f32 (58899 / 16384 * (-6056653 / 8388608)) = -340205 / 131072 := by decide!
    have e6 : f32 (-340205 / 131072 + 42515 / 16384) = -85 / 131072 := by decide!
    have hC : f32 (f32 (58899 / 16384 * t) + 42515 / 16384) ≤ -85 / 131072 := by
      have h1 := f32_monotone (show 58899 / 16384 * t ≤ 58899 / 16384 * (-6056653 / 8388608)
        by linarith)
      rw [e5] at h1
      have h2 := f32_monotone (show f32 (58899 / 16384 * t) + 42515 / 16384
        ≤ -340205 / 131072 + 42515 / 16384 by linarith)
      rwa [e6] at h2
    have hAC : f64 (t * t) * f32 (f32 (58899 / 16384 * t) + 42515 / 16384)
        ≤ 36683045562409 / 70368744177664 * (-85 / 131072) := by
      nlinarith
    have e7 : f64 (36683045562409 / 70368744177664 * (-85 / 131072))
        = -3118058872804765 / 9223372036854775808 := by decide!
    have h3 := f64_monotone hAC
    rw [e7] at h3
    have e8 : f64 (-3118058872804765 / 9223372036854775808 + 2)
        = 9005676765057005 / 4503599627370496 := by decide!
    have h4 := f64_monotone (show f64 (f64 (t * t)
      * f32 (f32 (58899 / 16384 * t) + 42515 / 16384)) + 2
        ≤ -3118058872804765 / 9223372036854775808 + 2 by linarith)
    rw [e8] at h4
    have e9 : f64 (1 / 2 * (9005676765057005 / 4503599627370496))
        = 9005676765057005 / 9007199254740992 := by decide!
    have h5 := f64_monotone (show 1 / 2 * f64 (f64 (f64 (t * t)
      * f32 (f32 (58899 / 16384 * t) + 42515 / 16384)) + 2)
        ≤ 1 / 2 * (9005676765057005 / 4503599627370496) by linarith)
    rw [e9] at h5
    have e10 : f32 (9005676765057005 / 9007199254740992) = 4193595 / 4194304 := by decide!
    have h6 := f32_monotone h5
    rw [e10] at h6
    exact lt_of_le_of_lt h6 (by norm_num)
/-! ## Ticks and completion -/

/-- C10, refuted as stated: in a running race a racer eased by `ease_in_sine` has progress
`4194265 / 2^22`, about `0.99999070`, after 1000 calls of `update(0.001f)`, not `1.0`: the
`float` nearest to `0.001` exceeds it, yet the 1000 rounded additions fall short of `1`. -/
theorem thousand_ticks_fall_short :
    ease_in_sine refLibM ∈ easingFunctions refLibM ∧
    (Racer.advance running tickDelta 1000
      (Racer.mk0 5 125 64 32 (ease_in_sine refLibM) 0)).percentageCompleted
        = 4194265 / 4194304 ∧
    (Racer.advance running tickDelta 1000
      (Racer.mk0 5 125 64 32 (ease_in_sine refLibM) 0)).percentageCompleted ≠ 1 := by
  have e := ease_in_sine_no_sync refLibM refCos_lower 1000 le_rfl 5 125 64 32 0
  rw [accumulate_1000] at e
  refine ⟨by simp [easingFunctions], e, ?_⟩
  rw [e]
  norm_num

/-- C10, amended. In a running race, for each of the four easing functions (and any maths
library), a racer that starts at progress `0` has progress exactly `1.0` after 1001 calls of
`update(0.001f)`; after 1000 calls its progress is either `1.0`, forced by the easing sync,
or the accumulated sum `4194265 / 2^22`. -/
theorem progress_after_1001_ticks (m : LibM) (f : ℚ → ℚ) (_hf : f ∈ easingFunctions m)
    (x y w h id : ℤ) :
    (Racer.advance running tickDelta 1001 (Racer.mk0 x y w h f id)).percentageCompleted = 1 ∧
    ((Racer.advance running tickDelta 1000 (Racer.mk0 x y w h f id)).percentageCompleted = 1 ∨
     (Racer.advance running tickDelta 1000 (Racer.mk0 x y w h f id)).percentageCompleted
        = 4194265 / 4194304) := by
  have h0 : (Racer.mk0 x y w h f id).percentageCompleted ≤ 1 := by
    show (0 : ℚ) ≤ 1
    norm_num
  constructor
  · rcases advance_cases running rfl 1001 _ h0 with h1 | h1
    · rw [h1]; exact accumulate_1001
    · exact h1
  · rcases advance_cases running rfl 1000 _ h0 with h1 | h1
    · right; rw [h1]; exact accumulate_1000
    · left; exact h1

/-- C10 amended, for `ease_in_out_back` over the reference library. -/
theorem progress_after_1001_ticks_witness :
    (Racer.advance running tickDelta 1001
      (Racer.mk0 5 305 64 32 (ease_in_out_back refLibM) 2)).percentageCompleted = 1 ∧
    ((Racer.advance running tickDelta 1000
      (Racer.mk0 5 305 64 32 (ease_in_out_back refLibM) 2)).percentageCompleted = 1 ∨
     (Racer.advance running tickDelta 1000
      (Racer.mk0 5 305 64 32 (ease_in_out_back refLibM) 2)).percentageCompleted
        = 4194265 / 4194304) :=
  progress_after_1001_ticks refLibM (ease_in_out_back refLibM) (by simp [easingFunctions])
    5 305 64 32 2

/-- At the progress reached after 640 ticks the value of `ease_in_out_back` is clamped to
`1.0`, for any `pow` that squares the `float` `2 * percent - 2` exactly. -/
theorem ease_in_out_back_at_640 (m : LibM)
    (hp : m.pow (-1509969 / 2097152) 2 = (1509969 / 2097152) ^ 2) :
    ease_in_out_back m (2684335 / 4194304) = 1 := by
  unfold ease_in_out_back
  have e0 : constrain (2684335 / 4194304) 0 1 = 2684335 / 4194304 := by
    unfold constrain; norm_num
  have e1 : f32 (f32 (2 * (2684335 / 4194304)) - 2) = -1509969 / 2097152 := by decide!
  simp only [e0]
  rw [if_neg (by norm_num), e1, hp]
  decide!

/-- A racer eased by `ease_in_out_back` is complete after 640 ticks: the eased value at the
accumulated progress `2684335 / 2^22` is clamped to `1.0`, and the sync then sets the progress
to `1.0`. -/
theorem back_complete_at_640 (m : LibM)
    (hp : m.pow (-1509969 / 2097152) 2 = (1509969 / 2097152) ^ 2) (x y w h id : ℤ) :
    (Racer.advance running tickDelta 640
      (Racer.mk0 x y w h (ease_in_out_back m) id)).percentageCompleted = 1 := by
  rw [advance_succ_last]
  have h0 : (Racer.mk0 x y w h (ease_in_out_back m) id).percentageCompleted ≤ 1 := by
    show (0 : ℚ) ≤ 1
    norm_num
  rcases advance_cases running rfl 639 _ h0 with h1 | h1
  · have hlt : (Racer.advance running tickDelta 639
        (Racer.mk0 x y w h (ease_in_out_back m) id)).percentageCompleted < 1 := by
      rw [h1]
      have := @accumulate_le_of_le 639 1000 (by norm_num)
      rw [accumulate_1000] at this
      exact lt_of_le_of_lt this (by norm_num)
    rw [update_progress running _ tickDelta rfl hlt, advance_easing, h1]
    have e : min (f32 (accumulate 639 (Racer.mk0 x y w h (ease_in_out_back m)
        id).percentageCompleted + tickDelta)) 1 = 2684335 / 4194304 := by
      rw [← accumulate_succ_last]
      exact accumulate_640
    rw [e]
    show (if ease_in_out_back m (2684335 / 4194304) ≥ 1 then (1 : ℚ) else _) = 1
    rw [ease_in_out_back_at_640 m hp]
    norm_num
  · rw [update_noop running _ tickDelta (Or.inr h1.ge)]
    exact h1

/-- With any maths library whose `pow` squares exactly and whose `cos` is at least `2^-20`
before the quarter turn, the easing function decides completion: after 640 ticks the racer
eased by `ease_in_out_back` is at `1.0` and the one eased by `ease_in_sine` at
`2684335 / 2^22`. -/
theorem completion_depends_on_easing (m : LibM)
    (hp : m.pow (-1509969 / 2097152) 2 = (1509969 / 2097152) ^ 2)
    (hcos : ∀ x : ℚ, 0 ≤ x → x ≤ 3537085986734815 / 2251799813685248 → 1 / 2 ^ 20 ≤ m.cos x)
    (x1 y1 w1 h1 id1 x2 y2 w2 h2 id2 : ℤ) :
    (Racer.advance running tickDelta 640
      (Racer.mk0 x1 y1 w1 h1 (ease_in_out_back m) id1)).percentageCompleted = 1 ∧
    (Racer.advance running tickDelta 640
      (Racer.mk0 x2 y2 w2 h2 (ease_in_sine m) id2)).percentageCompleted
        = 2684335 / 4194304 := by
  refine ⟨back_complete_at_640 m hp x1 y1 w1 h1 id1, ?_⟩
  rw [ease_in_sine_no_sync m hcos 640 (by norm_num), accumulate_640]

/-- The reference `pow` rounds squares correctly. -/
theorem refPow_two (t : ℚ) : refLibM.pow t 2 = f64 (t * t) := by
  show refPow t 2 = _
  unfold refPow
  have h : ⌊(2 : ℚ)⌋ = 2 := by simp
  have e : t ^ (2 : ℤ) * (1 + (t - 1) * (2 - ((2 : ℤ) : ℚ))) = t * t := by
    rw [zpow_two]
    push_cast
    ring
  rw [h, e]

theorem refPow_square : refLibM.pow (-1509969 / 2097152) 2 = (1509969 / 2097152) ^ 2 := by
  decide!

/-- C4, refuted as stated: after 640 calls of `update(0.001f)` in a running race the racer
eased by `ease_in_out_back` has progress `1.0` and is complete, while the racer eased by
`ease_in_sine` has progress `2684335 / 2^22`, about `0.640`, and is not. -/
theorem easing_changes_completion :
    ease_in_out_back refLibM ∈ easingFunctions refLibM ∧
    ease_in_sine refLibM ∈ easingFunctions refLibM ∧
    (Racer.advance running tickDelta 640
      (Racer.mk0 5 305 64 32 (ease_in_out_back refLibM) 2)).percentageCompleted = 1 ∧
    (Racer.advance running tickDelta 640
      (Racer.mk0 5 125 64 32 (ease_in_sine refLibM) 0)).percentageCompleted
        = 2684335 / 4194304 ∧
    (Racer.advance running tickDelta 640
      (Racer.mk0 5 305 64 32 (ease_in_out_back refLibM) 2)).percentageCompleted ≠
    (Racer.advance running tickDelta 640
      (Racer.mk0 5 125 64 32 (ease_in_sine refLibM) 0)).percentageCompleted := by
  have a := back_complete_at_640 refLibM refPow_square 5 305 64 32 2
  have b := ease_in_sine_no_sync refLibM refCos_lower 640 (by norm_num) 5 125 64 32 0
  rw [accumulate_640] at b
  refine ⟨by simp [easingFunctions], by simp [easingFunctions], a, b, ?_⟩
  rw [a, b]
  norm_num

/-! ### When a racer is complete -/

/-- A racer that starts at progress `0` is complete after `n` ticks of a running race
exactly when `n ≥ 1001` or its eased value has reached `1.0` at one of the first `n`
accumulated progress values, which is when `update` syncs the progress to `1.0`. -/
theorem advance_complete_iff (f : ℚ → ℚ) (n : ℕ) (x y w h id : ℤ) :
    (Racer.advance running tickDelta n (Racer.mk0 x y w h f id)).percentageCompleted ≥ 1 ↔
      (1001 ≤ n ∨ ∃ k, 1 ≤ k ∧ k ≤ n ∧ f (accumulate k 0) ≥ 1) := by
  have h0 : (Racer.mk0 x y w h f id).percentageCompleted ≤ 1 := by
    show (0 : ℚ) ≤ 1
    norm_num
  constructor
  · intro hc
    by_contra hne
    push_neg at hne
    obtain ⟨hn, hk⟩ := hne
    have e := advance_no_sync running rfl n (Racer.mk0 x y w h f id) h0 hk
    have hle := @accumulate_le_of_le n 1000 (by omega)
    rw [accumulate_1000] at hle
    have e2 : (Racer.advance running tickDelta n (Racer.mk0 x y w h f id)).percentageCompleted
        = accumulate n 0 := e
    rw [e2] at hc
    linarith
  · rintro (hn | ⟨k, hk1, hkn, hf⟩)
    · rcases advance_cases running rfl n _ h0 with e | e
      · rw [e]
        have hle := @accumulate_le_of_le 1001 n hn
        rw [accumulate_1001] at hle
        exact hle
      · exact e.ge
    · obtain ⟨j, rfl⟩ : ∃ j, k = j + 1 := ⟨k - 1, by omega⟩
      obtain ⟨d, rfl⟩ := Nat.exists_eq_add_of_le hkn
      have hk : (Racer.advance running tickDelta (j + 1)
          (Racer.mk0 x y w h f id)).percentageCompleted ≥ 1 := by
        rw [advance_succ_last]
        rcases lt_or_le (Racer.advance running tickDelta j
            (Racer.mk0 x y w h f id)).percentageCompleted 1 with hlt | hge
        · rcases advance_cases running rfl j _ h0 with e | e
          · rw [update_progress running _ tickDelta rfl hlt, advance_easing, e,
              ← accumulate_succ_last]
            show (if f (accumulate (j + 1) 0) ≥ 1 then (1 : ℚ) else _) ≥ 1
            rw [if_pos hf]
          · rw [e] at hlt
            exact absurd hlt (lt_irrefl _)
        · rw [update_noop running _ tickDelta (Or.inr hge)]
          exact hge
      rw [advance_add, advance_complete running tickDelta d _ hk]
      exact hk

/-- After `n` ticks of a running race the progress of a racer that started at `0` is `1.0`
if it is complete and the accumulated sum otherwise. -/
theorem advance_progress_eq (f : ℚ → ℚ) (n : ℕ) (x y w h id : ℤ) :
    (Racer.advance running tickDelta n (Racer.mk0 x y w h f id)).percentageCompleted =
      if (Racer.advance running tickDelta n (Racer.mk0 x y w h f id)).percentageCompleted ≥ 1
      then 1 else accumulate n 0 := by
  have h0 : (Racer.mk0 x y w h f id).percentageCompleted ≤ 1 := by
    show (0 : ℚ) ≤ 1
    norm_num
  have hacc : accumulate n 0 ≤ 1 := (accumulate_props n 0 f32_zero (by norm_num)).2.2
  rcases advance_cases running rfl n _ h0 with e | e
  · have e2 : (Racer.advance running tickDelta n (Racer.mk0 x y w h f id)).percentageCompleted
        = accumulate n 0 := e
    rw [e2]
    split_ifs with hc
    · exact le_antisymm hacc hc
    · rfl
  · rw [e]
    norm_num

/-- With a `pow` that rounds squares on `[-1, 1]` correctly, the racer eased by
`ease_in_out_back` is complete from tick 640 on and not before. -/
theorem back_complete_iff (m : LibM)
    (hpow : ∀ t : ℚ, -1 ≤ t → t ≤ 1 → m.pow t 2 = f64 (t * t)) (n : ℕ) (x y w h id : ℤ) :
    (Racer.advance running tickDelta n
      (Racer.mk0 x y w h (ease_in_out_back m) id)).percentageCompleted ≥ 1 ↔ 640 ≤ n := by
  have hsq : m.pow (-1509969 / 2097152) 2 = (1509969 / 2097152) ^ 2 := by
    rw [hpow _ (by norm_num) (by norm_num)]
    decide!
  rw [advance_complete_iff]
  constructor
  · rintro (hn | ⟨k, _, hkn, hf⟩)
    · omega
    · by_contra hlt
      have hle := @accumulate_le_of_le k 639 (by omega)
      rw [accumulate_639] at hle
      exact absurd hf (not_le.mpr (ease_in_out_back_lt_one m hpow _ hle))
  · intro hn
    right
    exact ⟨640, by norm_num, hn, by rw [accumulate_640, ease_in_out_back_at_640 m hsq]⟩

/-- With a `cos` that is at least `2^-20` before the quarter turn, the racer eased by
`ease_in_sine` is complete from tick 1001 on and not before. -/
theorem in_sine_complete_iff (m : LibM)
    (hcos : ∀ x : ℚ, 0 ≤ x → x ≤ 3537085986734815 / 2251799813685248 → 1 / 2 ^ 20 ≤ m.cos x)
    (n : ℕ) (x y w h id : ℤ) :
    (Racer.advance running tickDelta n
      (Racer.mk0 x y w h (ease_in_sine m) id)).percentageCompleted ≥ 1 ↔ 1001 ≤ n := by
  rw [advance_complete_iff]
  constructor
  · rintro (hn | ⟨k, _, hkn, hf⟩)
    · exact hn
    · by_contra hlt
      have hle := @accumulate_le_of_le k 1000 (by omega)
      rw [accumulate_1000] at hle
      exact absurd hf (not_le.mpr (ease_in_sine_lt_one m hcos _ hle))
  · intro hn
    exact Or.inl hn

/-- For the racers eased by `ease_in_out_back` and `ease_in_sine` the ticks at which the
progress differs are exactly 640 to 1000: with a `pow` that rounds squares correctly and a `cos` of at least `2^-20` before the
quarter turn, the racers eased by `ease_in_out_back` and `ease_in_sine` have the same
progress after `n` ticks exactly when `n < 640` or `n ≥ 1001`. -/
theorem back_and_in_sine_agree_iff (m : LibM)
    (hpow : ∀ t : ℚ, -1 ≤ t → t ≤ 1 → m.pow t 2 = f64 (t * t))
    (hcos : ∀ x : ℚ, 0 ≤ x → x ≤ 3537085986734815 / 2251799813685248 → 1 / 2 ^ 20 ≤ m.cos x)
    (n : ℕ) (x1 y1 w1 h1 id1 x2 y2 w2 h2 id2 : ℤ) :
    (Racer.advance running tickDelta n
        (Racer.mk0 x1 y1 w1 h1 (ease_in_out_back m) id1)).percentageCompleted
      = (Racer.advance running tickDelta n
        (Racer.mk0 x2 y2 w2 h2 (ease_in_sine m) id2)).percentageCompleted ↔
      (n < 640 ∨ 1001 ≤ n) := by
  have a := back_complete_iff m hpow n x1 y1 w1 h1 id1
  have b := in_sine_complete_iff m hcos n x2 y2 w2 h2 id2
  have pa := advance_progress_eq (ease_in_out_back m) n x1 y1 w1 h1 id1
  have pb := advance_progress_eq (ease_in_sine m) n x2 y2 w2 h2 id2
  constructor
  · intro e
    by_contra hne
    push_neg at hne
    have ha := a.mpr hne.1
    have hb : ¬ _ := fun hc => absurd (b.mp hc) (by omega)
    rw [e] at ha
    exact hb ha
  · rintro (hn | hn)
    · have ha : ¬ _ := fun hc => absurd (a.mp hc) (by omega)
      have hb : ¬ _ := fun hc => absurd (b.mp hc) (by omega)
      rw [pa, pb, if_neg ha, if_neg hb]
    · have ha := a.mpr (by omega)
      have hb := b.mpr hn
      rw [pa, pb, if_pos ha, if_pos hb]

/-- C4, amended. In a running race, for every tick count `n` and every two of the four
easing functions (with any maths library), consider two racers that start at progress `0`
and each receive `n` calls of `update(0.001f)`.  Each is complete after the `n`-th call
exactly when `n ≥ 1001` or its eased value has reached `1.0` at one of the first `n`
accumulated progress values (the sync of `update`); its progress is then `1.0` and
otherwise the accumulated sum.  The two have the same progress if and only if they have the
same completion status; this is so whenever `n ≥ 1001`, both being at `1.0`, and whenever
both or neither have been synced within the first `n` ticks. -/
theorem progress_equal_iff_same_completion (m : LibM) (f1 f2 : ℚ → ℚ)
    (_h1 : f1 ∈ easingFunctions m) (_h2 : f2 ∈ easingFunctions m) (n : ℕ)
    (x1 y1 w1 hh1 id1 x2 y2 w2 hh2 id2 : ℤ) :
    ((Racer.advance running tickDelta n
        (Racer.mk0 x1 y1 w1 hh1 f1 id1)).getPercentageCompleted ≥ 1 ↔
      (1001 ≤ n ∨ ∃ k, 1 ≤ k ∧ k ≤ n ∧ f1 (accumulate k 0) ≥ 1)) ∧
    ((Racer.advance running tickDelta n
        (Racer.mk0 x2 y2 w2 hh2 f2 id2)).getPercentageCompleted ≥ 1 ↔
      (1001 ≤ n ∨ ∃ k, 1 ≤ k ∧ k ≤ n ∧ f2 (accumulate k 0) ≥ 1)) ∧
    ((Racer.advance running tickDelta n (Racer.mk0 x1 y1 w1 hh1 f1 id1)).percentageCompleted =
      if (Racer.advance running tickDelta n
        (Racer.mk0 x1 y1 w1 hh1 f1 id1)).getPercentageCompleted ≥ 1
      then 1 else accumulate n 0) ∧
    ((Racer.advance running tickDelta n (Racer.mk0 x2 y2 w2 hh2 f2 id2)).percentageCompleted =
      if (Racer.advance running tickDelta n
        (Racer.mk0 x2 y2 w2 hh2 f2 id2)).getPercentageCompleted ≥ 1
      then 1 else accumulate n 0) ∧
    ((Racer.advance running tickDelta n (Racer.mk0 x1 y1 w1 hh1 f1 id1)).percentageCompleted
        = (Racer.advance running tickDelta n
            (Racer.mk0 x2 y2 w2 hh2 f2 id2)).percentageCompleted ↔
      ((Racer.advance running tickDelta n
          (Racer.mk0 x1 y1 w1 hh1 f1 id1)).getPercentageCompleted ≥ 1 ↔
        (Racer.advance running tickDelta n
          (Racer.mk0 x2 y2 w2 hh2 f2 id2)).getPercentageCompleted ≥ 1)) ∧
    (1001 ≤ n →
      (Racer.advance running tickDelta n
        (Racer.mk0 x1 y1 w1 hh1 f1 id1)).percentageCompleted = 1 ∧
      (Racer.advance running tickDelta n
        (Racer.mk0 x2 y2 w2 hh2 f2 id2)).percentageCompleted = 1) ∧
    (((∃ k, 1 ≤ k ∧ k ≤ n ∧ f1 (accumulate k 0) ≥ 1) ↔
        (∃ k, 1 ≤ k ∧ k ≤ n ∧ f2 (accumulate k 0) ≥ 1)) →
      (Racer.advance running tickDelta n (Racer.mk0 x1 y1 w1 hh1 f1 id1)).percentageCompleted
        = (Racer.advance running tickDelta n
            (Racer.mk0 x2 y2 w2 hh2 f2 id2)).percentageCompleted) := by
  simp only [getPercentageCompleted_eq]
  have a := advance_complete_iff f1 n x1 y1 w1 hh1 id1
  have b := advance_complete_iff f2 n x2 y2 w2 hh2 id2
  have pa := advance_progress_eq f1 n x1 y1 w1 hh1 id1
  have pb := advance_progress_eq f2 n x2 y2 w2 hh2 id2
  have hlt : ∀ {p : ℚ}, ¬ p ≥ 1 → p ≠ 1 := fun hp he => hp he.ge
  have key : ((Racer.advance running tickDelta n
        (Racer.mk0 x1 y1 w1 hh1 f1 id1)).percentageCompleted ≥ 1 ↔
      (Racer.advance running tickDelta n
        (Racer.mk0 x2 y2 w2 hh2 f2 id2)).percentageCompleted ≥ 1) →
      (Racer.advance running tickDelta n (Racer.mk0 x1 y1 w1 hh1 f1 id1)).percentageCompleted
        = (Racer.advance running tickDelta n
            (Racer.mk0 x2 y2 w2 hh2 f2 id2)).percentageCompleted := by
    intro hiff
    by_cases hc : (Racer.advance running tickDelta n
        (Racer.mk0 x1 y1 w1 hh1 f1 id1)).percentageCompleted ≥ 1
    · rw [pa, pb, if_pos hc, if_pos (hiff.mp hc)]
    · rw [pa, pb, if_neg hc, if_neg fun h2 => hc (hiff.mpr h2)]
  refine ⟨a, b, pa, pb, ⟨fun e => by rw [e], key⟩, fun hn => ?_, fun hs => ?_⟩
  · have ha := a.mpr (Or.inl hn)
    have hb := b.mpr (Or.inl hn)
    rw [pa, pb, if_pos ha, if_pos hb]
    exact ⟨rfl, rfl⟩
  · apply key
    rw [a, b, hs]

/-- C4 amended, over the reference library.  For `ease_in_sine` and `ease_in_out_back`:
after 1001 ticks both racers are complete at progress `1.0`, and after 320 ticks neither is
and both are at the same accumulated sum.  For two racers eased by `ease_in_out_back`: after
700 ticks both have been synced and are complete at `1.0`. -/
theorem progress_equal_iff_same_completion_witness :
    ((Racer.advance running tickDelta 1001
        (Racer.mk0 5 125 64 32 (ease_in_sine refLibM) 0)).percentageCompleted = 1 ∧
      (Racer.advance running tickDelta 1001
        (Racer.mk0 5 305 64 32 (ease_in_out_back refLibM) 2)).percentageCompleted = 1 ∧
      (Racer.advance running tickDelta 1001
        (Racer.mk0 5 125 64 32 (ease_in_sine refLibM) 0)).getPercentageCompleted ≥ 1 ∧
      (Racer.advance running tickDelta 1001
        (Racer.mk0 5 305 64 32 (ease_in_out_back refLibM) 2)).getPercentageCompleted ≥ 1) ∧
    ((Racer.advance running tickDelta 320
        (Racer.mk0 5 125 64 32 (ease_in_sine refLibM) 0)).percentageCompleted
      = (Racer.advance running tickDelta 320
        (Racer.mk0 5 305 64 32 (ease_in_out_back refLibM) 2)).percentageCompleted ∧
      ¬ (Racer.advance running tickDelta 320
        (Racer.mk0 5 125 64 32 (ease_in_sine refLibM) 0)).getPercentageCompleted ≥ 1 ∧
      ¬ (Racer.advance running tickDelta 320
        (Racer.mk0 5 305 64 32 (ease_in_out_back refLibM) 2)).getPercentageCompleted ≥ 1) ∧
    ((Racer.advance running tickDelta 700
        (Racer.mk0 5 210 64 32 (ease_in_out_back refLibM) 1)).percentageCompleted
      = (Racer.advance running tickDelta 700
        (Racer.mk0 5 305 64 32 (ease_in_out_back refLibM) 2)).percentageCompleted ∧
      (Racer.advance running tickDelta 700
        (Racer.mk0 5 210 64 32 (ease_in_out_back refLibM) 1)).getPercentageCompleted ≥ 1 ∧
      (Racer.advance running tickDelta 700
        (Racer.mk0 5 305 64 32 (ease_in_out_back refLibM) 2)).getPercentageCompleted ≥ 1) := by
  have hm1 : ease_in_sine refLibM ∈ easingFunctions refLibM := by simp [easingFunctions]
  have hm2 : ease_in_out_back refLibM ∈ easingFunctions refLibM := by simp [easingFunctions]
  obtain ⟨a1, a2, _, _, _, a6, _⟩ := progress_equal_iff_same_completion refLibM
    (ease_in_sine refLibM) (ease_in_out_back refLibM) hm1 hm2 1001 5 125 64 32 0 5 305 64 32 2
  obtain ⟨_, _, _, _, b5, _, _⟩ := progress_equal_iff_same_completion refLibM
    (ease_in_sine refLibM) (ease_in_out_back refLibM) hm1 hm2 320 5 125 64 32 0 5 305 64 32 2
  obtain ⟨_, _, _, _, _, _, c7⟩ := progress_equal_iff_same_completion refLibM
    (ease_in_out_back refLibM) (ease_in_out_back refLibM) hm2 hm2 700 5 210 64 32 1 5 305 64 32 2
  have hs : ¬ (Racer.advance running tickDelta 320
      (Racer.mk0 5 125 64 32 (ease_in_sine refLibM) 0)).getPercentageCompleted ≥ 1 := by
    rw [getPercentageCompleted_eq, in_sine_complete_iff refLibM refCos_lower]
    norm_num
  have hb : ¬ (Racer.advance running tickDelta 320
      (Racer.mk0 5 305 64 32 (ease_in_out_back refLibM) 2)).getPercentageCompleted ≥ 1 := by
    rw [getPercentageCompleted_eq, back_complete_iff refLibM fun t _ _ => refPow_two t]
    norm_num
  have hk : ∀ x y w h id, (Racer.advance running tickDelta 700
      (Racer.mk0 x y w h (ease_in_out_back refLibM) id)).getPercentageCompleted ≥ 1 := by
    intro x y w h id
    rw [getPercentageCompleted_eq, back_complete_iff refLibM fun t _ _ => refPow_two t]
    norm_num
  exact ⟨⟨(a6 le_rfl).1, (a6 le_rfl).2, a1.mpr (Or.inl le_rfl), a2.mpr (Or.inl le_rfl)⟩,
    ⟨b5.mpr ⟨fun h => absurd h hs, fun h => absurd h hb⟩, hs, hb⟩,
    ⟨c7 Iff.rfl, hk 5 210 64 32 1, hk 5 305 64 32 2⟩⟩

/-! ## The finalize block, run without interruption -/

theorem tryFinish_unfinished (g : RaceState) (i : ℤ) (h : g.raceFinished = false) :
    tryFinish g i =
      ({ raceFinished := true, raceStarted := g.raceStarted, winnerId := i }, true) := by
  unfold tryFinish
  simp [h]

theorem tryFinish_finished (g : RaceState) (i : ℤ) (h : g.raceFinished = true) :
    tryFinish g i = (g, false) := by
  unfold tryFinish
  simp [h]

theorem tryFinishAll_finished (g : RaceState) (h : g.raceFinished = true) (ids : List ℤ) :
    tryFinishAll g ids = ids.map fun _ => (false, g) := by
  induction ids with
  | nil => rfl
  | cons i rest ih =>
    unfold tryFinishAll
    simp only [tryFinish_finished g i h, List.map_cons]
    rw [ih]

/-- The three atomic steps of a worker that runs the finalize block alone do what
`tryFinish` does, and a worker that finds the race finished returns to the loop head. -/
theorem finalize_steps (g : RaceState) (w : Worker) (hpc : w.pc = .finishTest) :
    (g.raceFinished = false →
      ((w.step g).2.step (w.step g).1).2.step ((w.step g).2.step (w.step g).1).1
        = ((tryFinish g w.racerId).1, { w with pc := .exited })) ∧
    (g.raceFinished = true → w.step g = (g, { w with pc := .loopTest })) := by
  constructor
  · intro h
    simp [Worker.step, hpc, h, tryFinish]
  · intro h
    simp [Worker.step, hpc, h]

/-- C2. On globals with `raceFinished = false`, a non-empty sequence of finalize attempts run
one after another: the first enters the winning branch, every later one does not, and after
every attempt `raceFinished = true` and `winnerId` is the first id.  In particular
`tryFinish(5)` on the initial globals wins with winner 5, and `tryFinish(1)` then
`tryFinish(2)` give success then failure with the winner still 1. -/
theorem first_finalize_wins (g : RaceState) (i : ℤ) (rest : List ℤ)
    (h : g.raceFinished = false) :
    tryFinishAll g (i :: rest) =
      (true, { raceFinished := true, raceStarted := g.raceStarted, winnerId := i }) ::
        rest.map (fun _ =>
          (false, { raceFinished := true, raceStarted := g.raceStarted, winnerId := i })) ∧
    tryFinish RaceState.initial 5 =
      ({ raceFinished := true, raceStarted := false, winnerId := 5 }, true) ∧
    tryFinishAll RaceState.initial [1, 2] =
      [(true, { raceFinished := true, raceStarted := false, winnerId := 1 }),
       (false, { raceFinished := true, raceStarted := false, winnerId := 1 })] := by
  refine ⟨?_, by decide, by decide⟩
  unfold tryFinishAll
  simp only [tryFinish_unfinished g i h]
  rw [tryFinishAll_finished _ rfl]

/-- C2, at a concrete input: three attempts, by 3, 0 and 2, on the globals of a running
race. -/
theorem first_finalize_wins_witness :
    tryFinishAll running [3, 0, 2] =
      [(true, { raceFinished := true, raceStarted := true, winnerId := 3 }),
       (false, { raceFinished := true, raceStarted := true, winnerId := 3 }),
       (false, { raceFinished := true, raceStarted := true, winnerId := 3 })] :=
  (first_finalize_wins running 3 [0, 2] rfl).1

/-! ## Interleaved executions -/

@[simp] theorem stepWorker_shared {n : ℕ} (s : System n) (i : Fin n) :
    (s.stepWorker i).shared = ((s.workers i).step s.shared).1 := rfl

@[simp] theorem stepWorker_same {n : ℕ} (s : System n) (i : Fin n) :
    (s.stepWorker i).workers i = ((s.workers i).step s.shared).2 := by
  simp [System.stepWorker]

@[simp] theorem stepWorker_other {n : ℕ} (s : System n) (i j : Fin n) (h : j ≠ i) :
    (s.stepWorker i).workers j = s.workers j := by
  simp [System.stepWorker, Function.update_noteq h]

theorem run_append {n : ℕ} (s : System n) (a b : List (Action n)) :
    s.run (a ++ b) = (s.run a).run b := by
  simp [System.run, List.foldl_append]

theorem reachable_run {n : ℕ} (s0 s : System n) (h : Reachable s0 s) (sched : List (Action n)) :
    Reachable s0 (s.run sched) := by
  induction sched generalizing s with
  | nil => exact h
  | cons a rest ih => exact ih _ (Reachable.next a h)

/-- C1, the code at the failing input.  Two workers with ids 0 and 1 stand at the finalize
block of a running race.  Under the interleaving load(0), load(1), store(0), store(0),
store(1), store(1): both loads read `raceFinished = false`, so both workers enter the
winning branch; worker 0 records itself and sets `raceFinished`; worker 1 then overwrites
`winnerId` with 1 although the race is already finished. -/
theorem finalize_lost_update :
    ((twoFinalizers.run [.worker 0, .worker 1]).workers 0).pc = Pc.storeWinner ∧
    ((twoFinalizers.run [.worker 0, .worker 1]).workers 1).pc = Pc.storeWinner ∧
    (twoFinalizers.run [.worker 0, .worker 1, .worker 0, .worker 0]).shared
      = { raceFinished := true, raceStarted := true, winnerId := 0 } ∧
    ((twoFinalizers.run [.worker 0, .worker 1, .worker 0, .worker 0]).workers 0).pc
      = Pc.exited ∧
    (twoFinalizers.run
        [.worker 0, .worker 1, .worker 0, .worker 0, .worker 1, .worker 1]).shared
      = { raceFinished := true, raceStarted := true, winnerId := 1 } ∧
    ((twoFinalizers.run
        [.worker 0, .worker 1, .worker 0, .worker 0, .worker 1, .worker 1]).workers 1).pc
      = Pc.exited := by
  refine ⟨?_, ?_, ?_, ?_, ?_, ?_⟩ <;> decide

/-! ## The invariant linking `winnerId` and `raceFinished` -/

theorem step_racerId (g : RaceState) (w : Worker) : (w.step g).2.racerId = w.racerId := by
  unfold Worker.step
  cases w.pc <;> simp only <;> split_ifs <;> rfl

/-- What one atomic step can do to the globals and to the worker's place in the code. -/
theorem step_effect (g : RaceState) (w : Worker) :
    ((w.step g).1 = g ∧ w.pc ≠ .storeFinished ∧ (w.step g).2.pc ≠ .storeFinished) ∨
    (w.pc = .storeWinner ∧ (w.step g).1 = { g with winnerId := w.racerId } ∧
      (w.step g).2.pc = .storeFinished) ∨
    (w.pc = .storeFinished ∧ (w.step g).1 = { g with raceFinished := true } ∧
      (w.step g).2.pc = .exited) := by
  unfold Worker.step
  cases hpc : w.pc <;> simp only
  · left; split_ifs <;> simp
  · left; split_ifs <;> simp
  · left; split_ifs <;> simp [update_fst]
  · left; split_ifs <;> simp
  · right; left; simp
  · right; right; simp
  · left; simp [hpc]

theorem validId_fin (i : Fin 4) : validId (i.val : ℤ) := by
  unfold validId
  have := i.isLt
  constructor <;> omega

theorem winnerInv_init (fs : Fin 4 → ℚ → ℚ) (w h : Fin 4 → ℤ) :
    WinnerInv (mainSystem fs w h) := by
  refine ⟨fun i => rfl, ?_⟩
  simp [mainSystem, mainWorkers, RaceState.initial, validId]

theorem winnerInv_act (s : System 4) (a : Action 4) (hs : WinnerInv s) :
    WinnerInv (s.act a) := by
  obtain ⟨hid, hiff⟩ := hs
  cases a with
  | space =>
    unfold System.act System.pressSpace
    simp only
    split_ifs
    · exact ⟨hid, hiff⟩
    · exact ⟨hid, hiff⟩
  | worker i =>
    show WinnerInv (s.stepWorker i)
    have hid' : ∀ j, ((s.stepWorker i).workers j).racerId = (j.val : ℤ) := by
      intro j
      by_cases hj : j = i
      · subst hj
        rw [stepWorker_same, step_racerId, hid]
      · rw [stepWorker_other s i j hj, hid]
    refine ⟨hid', ?_⟩
    rw [stepWorker_shared]
    rcases step_effect s.shared (s.workers i) with ⟨e1, e2, e3⟩ | ⟨e1, e2, e3⟩ | ⟨e1, e2, e3⟩
    · rw [e1, hiff]
      apply or_congr Iff.rfl
      constructor
      · rintro ⟨j, hj⟩
        have hne : j ≠ i := fun hc => e2 (hc ▸ hj)
        exact ⟨j, by rw [stepWorker_other s i j hne]; exact hj⟩
      · rintro ⟨j, hj⟩
        have hne : j ≠ i := by
          intro hc
          subst hc
          rw [stepWorker_same] at hj
          exact e3 hj
        exact ⟨j, by rw [stepWorker_other s i j hne] at hj; exact hj⟩
    · rw [e2]
      constructor
      · intro _
        exact Or.inr ⟨i, by rw [stepWorker_same]; exact e3⟩
      · intro _
        show validId (s.workers i).racerId
        rw [hid]
        exact validId_fin i
    · rw [e2]
      constructor
      · intro _
        exact Or.inl rfl
      · intro _
        show validId s.shared.winnerId
        exact hiff.mpr (Or.inr ⟨i, e1⟩)

theorem winnerInv_reachable (fs : Fin 4 → ℚ → ℚ) (w h : Fin 4 → ℤ) (s : System 4)
    (hs : Reachable (mainSystem fs w h) s) : WinnerInv s := by
  induction hs with
  | start => exact winnerInv_init fs w h
  | next a _ ih => exact winnerInv_act _ a ih

/-- C3, amended. In every state the program reaches from its initial state, under any
interleaving and any assignment of easing functions: if `raceFinished` is true then
`winnerId` is a participant id (0 to 3); and `winnerId` is a participant id exactly when
`raceFinished` is true or some worker stands between its `winnerId.store` and its
`raceFinished.store`. -/
theorem winner_valid_iff (fs : Fin 4 → ℚ → ℚ) (w h : Fin 4 → ℤ) (s : System 4)
    (hs : Reachable (mainSystem fs w h) s) :
    (s.shared.raceFinished = true → validId s.shared.winnerId) ∧
    (validId s.shared.winnerId ↔
      (s.shared.raceFinished = true ∨ ∃ i, (s.workers i).pc = Pc.storeFinished)) := by
  have hinv := (winnerInv_reachable fs w h s hs).2
  exact ⟨fun hf => hinv.mpr (Or.inl hf), hinv⟩

/-! ## A worker running alone -/

theorem step_loopTest (g : RaceState) (w : Worker) (hpc : w.pc = .loopTest)
    (hfin : g.raceFinished = false) : w.step g = (g, { w with pc := .startTest }) := by
  simp [Worker.step, hpc, hfin]

theorem step_loopTest_finished (g : RaceState) (w : Worker) (hpc : w.pc = .loopTest)
    (hfin : g.raceFinished = true) : w.step g = (g, { w with pc := .exited }) := by
  simp [Worker.step, hpc, hfin]

theorem step_startTest (g : RaceState) (w : Worker) (hpc : w.pc = .startTest)
    (hst : g.raceStarted = true) : w.step g = (g, { w with pc := .tick }) := by
  simp [Worker.step, hpc, hst]

theorem step_tick (g : RaceState) (w : Worker) (hpc : w.pc = .tick) :
    w.step g = (g, { w with
      racer := (w.racer.update g tickDelta).2
      pc := if (w.racer.update g tickDelta).2.percentageCompleted ≥ 1
        then Pc.finishTest else Pc.loopTest }) := by
  simp only [Worker.step, hpc, update_fst, Racer.getPercentageCompleted]
  split_ifs <;> rfl

theorem step_finishTest (g : RaceState) (w : Worker) (hpc : w.pc = .finishTest)
    (hfin : g.raceFinished = false) : w.step g = (g, { w with pc := .storeWinner }) := by
  simp [Worker.step, hpc, hfin]

theorem step_storeWinner (g : RaceState) (w : Worker) (hpc : w.pc = .storeWinner) :
    w.step g = ({ g with winnerId := w.racerId }, { w with pc := .storeFinished }) := by
  simp [Worker.step, hpc]

theorem step_storeFinished (g : RaceState) (w : Worker) (hpc : w.pc = .storeFinished) :
    w.step g = ({ g with raceFinished := true }, { w with pc := .exited }) := by
  simp [Worker.step, hpc]

theorem step_exited (g : RaceState) (w : Worker) (hpc : w.pc = .exited) :
    w.step g = (g, w) := by
  simp [Worker.step, hpc]

theorem act_worker {n : ℕ} (s : System n) (i : Fin n) :
    s.act (.worker i) = s.stepWorker i := rfl

theorem run_three {n : ℕ} (s : System n) (a b c : Action n) :
    s.run [a, b, c] = ((s.act a).act b).act c := rfl

theorem run_two {n : ℕ} (s : System n) (a b : Action n) :
    s.run [a, b] = (s.act a).act b := rfl

/-- The first three atomic steps of a loop iteration of worker `i` in a running race: the
two loads and the tick. -/
theorem three_steps {n : ℕ} (s : System n) (i : Fin n)
    (hst : s.shared.raceStarted = true) (hfin : s.shared.raceFinished = false)
    (hpc : (s.workers i).pc = .loopTest) :
    (s.run [.worker i, .worker i, .worker i]).shared = s.shared ∧
    ((s.run [.worker i, .worker i, .worker i]).workers i).racer
      = ((s.workers i).racer.update s.shared tickDelta).2 ∧
    ((s.run [.worker i, .worker i, .worker i]).workers i).racerId = (s.workers i).racerId ∧
    ((s.run [.worker i, .worker i, .worker i]).workers i).pc
      = (if ((s.workers i).racer.update s.shared tickDelta).2.percentageCompleted ≥ 1
          then Pc.finishTest else Pc.loopTest) ∧
    ∀ j, j ≠ i → (s.run [.worker i, .worker i, .worker i]).workers j = s.workers j := by
  simp only [run_three, act_worker]
  have h1 := step_loopTest s.shared (s.workers i) hpc hfin
  have e1s : (s.stepWorker i).shared = s.shared := by rw [stepWorker_shared, h1]
  have e1w : (s.stepWorker i).workers i = { s.workers i with pc := .startTest } := by
    rw [stepWorker_same, h1]
  have h2 := step_startTest (s.stepWorker i).shared ((s.stepWorker i).workers i)
    (by rw [e1w]) (by rw [e1s]; exact hst)
  have e2s : ((s.stepWorker i).stepWorker i).shared = s.shared := by
    rw [stepWorker_shared, h2, e1s]
  have e2w : ((s.stepWorker i).stepWorker i).workers i = { s.workers i with pc := .tick } := by
    rw [stepWorker_same, h2, e1w]
  have h3 := step_tick ((s.stepWorker i).stepWorker i).shared
    (((s.stepWorker i).stepWorker i).workers i) (by rw [e2w])
  refine ⟨?_, ?_, ?_, ?_, ?_⟩
  · rw [stepWorker_shared, h3, e2s]
  · rw [stepWorker_same, h3, e2w, e2s]
  · rw [stepWorker_same, h3, e2w]
  · rw [stepWorker_same, h3, e2w, e2s]
  · intro j hj
    rw [stepWorker_other _ i j hj, stepWorker_other _ i j hj, stepWorker_other _ i j hj]

/-- A worker that runs alone in a running race reaches the finalize block within 1001
ticks, whatever its easing function, leaving the globals and the other workers as they
were. -/
theorem solo_to_finalize {n : ℕ} (d : ℕ) : ∀ (k : ℕ) (s : System n) (i : Fin n),
    k + d = 1001 → s.shared.raceStarted = true → s.shared.raceFinished = false →
    (s.workers i).pc = .loopTest →
    (s.workers i).racer.percentageCompleted = accumulate k 0 → accumulate k 0 < 1 →
    ∃ sched : List (Action n),
      (s.run sched).shared = s.shared ∧ ((s.run sched).workers i).pc = Pc.finishTest ∧
      ((s.run sched).workers i).racerId = (s.workers i).racerId ∧
      ∀ j, j ≠ i → (s.run sched).workers j = s.workers j := by
  induction d with
  | zero =>
    intro k s i hk _ _ _ _ hlt
    have : k = 1001 := by omega
    rw [this, accumulate_1001] at hlt
    exact absurd hlt (lt_irrefl _)
  | succ d ih =>
    intro k s i hk hst hfin hpc hp hlt
    obtain ⟨a1, a2, a3, a4, a5⟩ := three_steps s i hst hfin hpc
    by_cases hc : ((s.workers i).racer.update s.shared tickDelta).2.percentageCompleted ≥ 1
    · rw [if_pos hc] at a4
      exact ⟨_, a1, a4, a3, a5⟩
    · rw [if_neg hc] at a4
      have hplt : (s.workers i).racer.percentageCompleted < 1 := by rw [hp]; exact hlt
      have hnew : ((s.workers i).racer.update s.shared tickDelta).2.percentageCompleted
          = accumulate (k + 1) 0 := by
        rcases update_progress_cases s.shared _ tickDelta hfin hplt with h | h
        · rw [h, hp, accumulate_succ_last]
        · exact absurd h.ge hc
      have hlt' : accumulate (k + 1) 0 < 1 := by
        rw [← hnew]
        exact lt_of_not_le hc
      obtain ⟨sched, b1, b2, b3, b4⟩ :=
        ih (k + 1) (s.run [.worker i, .worker i, .worker i]) i (by omega)
          (by rw [a1]; exact hst) (by rw [a1]; exact hfin) a4 (by rw [a2]; exact hnew) hlt'
      refine ⟨[.worker i, .worker i, .worker i] ++ sched, ?_, ?_, ?_, ?_⟩
      · rw [run_append, b1, a1]
      · rw [run_append, b2]
      · rw [run_append, b3, a3]
      · intro j hj
        rw [run_append, b4 j hj, a5 j hj]

/-- From the finalize block of an unfinished race, the load and the first store of worker
`i`: the worker has entered the winning branch and recorded itself, and `raceFinished` is
still false. -/
theorem enter_and_store {n : ℕ} (s : System n) (i : Fin n)
    (hfin : s.shared.raceFinished = false) (hpc : (s.workers i).pc = .finishTest) :
    (s.run [.worker i, .worker i]).shared
      = { s.shared with winnerId := (s.workers i).racerId } ∧
    ((s.run [.worker i, .worker i]).workers i).pc = Pc.storeFinished ∧
    ∀ j, j ≠ i → (s.run [.worker i, .worker i]).workers j = s.workers j := by
  simp only [run_two, act_worker]
  have h1 := step_finishTest s.shared (s.workers i) hpc hfin
  have e1s : (s.stepWorker i).shared = s.shared := by rw [stepWorker_shared, h1]
  have e1w : (s.stepWorker i).workers i = { s.workers i with pc := .storeWinner } := by
    rw [stepWorker_same, h1]
  have h2 := step_storeWinner (s.stepWorker i).shared ((s.stepWorker i).workers i)
    (by rw [e1w])
  refine ⟨?_, ?_, ?_⟩
  · rw [stepWorker_shared, h2, e1s, e1w]
  · rw [stepWorker_same, h2]
  · intro j hj
    rw [stepWorker_other _ i j hj, stepWorker_other _ i j hj]

/-- In the running program some interleaving brings worker `i` between its two stores:
`winnerId` already holds its id while `raceFinished` is still false. -/
theorem winner_stored_before_finished (fs : Fin 4 → ℚ → ℚ) (w h : Fin 4 → ℤ) (i : Fin 4) :
    ∃ s, Reachable (mainSystem fs w h) s ∧ s.shared.winnerId = (i.val : ℤ) ∧
      s.shared.raceFinished = false ∧ (s.workers i).pc = Pc.storeFinished := by
  obtain ⟨sched, b1, b2, b3, _⟩ :=
    solo_to_finalize 1001 0 ((mainSystem fs w h).run [.space]) i (by norm_num) rfl rfl rfl rfl
      (by show (0 : ℚ) < 1; norm_num)
  obtain ⟨c1, c2, _⟩ := enter_and_store _ i (by rw [b1]; rfl) b2
  refine ⟨(((mainSystem fs w h).run [.space]).run sched).run [.worker i, .worker i], ?_, ?_, ?_, c2⟩
  · exact reachable_run _ _ (reachable_run _ _ (reachable_run _ _ Reachable.start _) _) _
  · rw [c1]
    show ((((mainSystem fs w h).run [.space]).run sched).workers i).racerId = _
    rw [b3]
    rfl
  · rw [c1]
    show (((mainSystem fs w h).run [.space]).run sched).shared.raceFinished = false
    rw [b1]
    rfl

/-- C3, refuted as stated: the program reaches a state in which `winnerId` is a participant
id while `raceFinished` is still false, namely between the two stores of the winner. -/
theorem winner_valid_before_finished :
    ¬ ∀ s : System 4, Reachable (mainSystem refEasing (fun _ => 64) (fun _ => 32)) s →
        (validId s.shared.winnerId ↔ s.shared.raceFinished = true) := by
  intro hall
  obtain ⟨s, hs, hw, hf, _⟩ :=
    winner_stored_before_finished refEasing (fun _ => 64) (fun _ => 32) 2
  have := (hall s hs).mp (by rw [hw]; exact validId_fin 2)
  rw [hf] at this
  exact Bool.false_ne_true this

/-! ### The winner of a solo run, between its two stores -/

theorem run_cons {n : ℕ} (s : System n) (a : Action n) (rest : List (Action n)) :
    s.run (a :: rest) = (s.act a).run rest := rfl

theorem replicate_three {α : Type} (a : α) (n : ℕ) :
    List.replicate (3 * (n + 1)) a = [a, a, a] ++ List.replicate (3 * n) a := by
  rw [show 3 * (n + 1) = 3 + 3 * n by ring, List.replicate_add]
  rfl

/-- Worker `i` running alone in a running race: if its racer is incomplete after each of the
first `n` ticks, then `3 * (n + 1)` steps of the worker are `n + 1` ticks of its racer; the
worker then stands at the finalize block if the racer is complete and at the loop head
otherwise, and the globals and the other workers are as they were. -/
theorem solo_ticks {N : ℕ} (i : Fin N) (n : ℕ) : ∀ s : System N,
    s.shared.raceStarted = true → s.shared.raceFinished = false →
    (s.workers i).pc = .loopTest →
    (∀ k, 1 ≤ k → k ≤ n →
      (Racer.advance s.shared tickDelta k (s.workers i).racer).percentageCompleted < 1) →
    (s.run (List.replicate (3 * (n + 1)) (.worker i))).shared = s.shared ∧
    ((s.run (List.replicate (3 * (n + 1)) (.worker i))).workers i).racer
      = Racer.advance s.shared tickDelta (n + 1) (s.workers i).racer ∧
    ((s.run (List.replicate (3 * (n + 1)) (.worker i))).workers i).racerId
      = (s.workers i).racerId ∧
    ((s.run (List.replicate (3 * (n + 1)) (.worker i))).workers i).pc
      = (if (Racer.advance s.shared tickDelta (n + 1)
            (s.workers i).racer).percentageCompleted ≥ 1
          then Pc.finishTest else Pc.loopTest) ∧
    ∀ j, j ≠ i → (s.run (List.replicate (3 * (n + 1)) (.worker i))).workers j
      = s.workers j := by
  induction n with
  | zero =>
    intro s hst hfin hpc _
    exact three_steps s i hst hfin hpc
  | succ n ih =>
    intro s hst hfin hpc hlt
    obtain ⟨a1, a2, a3, a4, a5⟩ := three_steps s i hst hfin hpc
    have h1 := hlt 1 le_rfl (by omega)
    have h1' : ¬ ((s.workers i).racer.update s.shared tickDelta).2.percentageCompleted ≥ 1 :=
      not_le.mpr h1
    rw [if_neg h1'] at a4
    obtain ⟨b1, b2, b3, b4, b5⟩ := ih (s.run [.worker i, .worker i, .worker i])
      (by rw [a1]; exact hst) (by rw [a1]; exact hfin) a4 (by
        intro k hk1 hk2
        rw [a1, a2]
        exact hlt (k + 1) (by omega) (by omega))
    rw [replicate_three, run_append]
    refine ⟨by rw [b1, a1], ?_, by rw [b3, a3], ?_, ?_⟩
    · rw [b2, a1, a2]
      rfl
    · rw [b4, a1, a2]
      rfl
    · intro j hj
      rw [b5 j hj, a5 j hj]

theorem main_started_shared :
    ((mainSystem refEasing (fun _ => 64) (fun _ => 32)).act .space).shared = running := rfl

theorem main_started_racer :
    (((mainSystem refEasing (fun _ => 64) (fun _ => 32)).act .space).workers 2).racer
      = Racer.mk0 5 305 64 32 (ease_in_out_back refLibM) 2 := rfl

theorem main_started_racerId :
    (((mainSystem refEasing (fun _ => 64) (fun _ => 32)).act .space).workers 2).racerId
      = 2 := rfl

theorem solo_schedule :
    (Action.space :: List.replicate 1922 (Action.worker (2 : Fin 4)))
      = Action.space :: (List.replicate (3 * (639 + 1)) (Action.worker (2 : Fin 4))
          ++ [Action.worker 2, Action.worker 2]) := by
  rw [show 1922 = 3 * (639 + 1) + 2 by norm_num, List.replicate_add]
  rfl

/-- The program run with the unshuffled easing functions: after the space bar, worker 2
(eased by `ease_in_out_back`) runs alone for 1922 steps, which are 640 ticks and then the
load and the first store of the finalize block.  `winnerId` is 2, `raceFinished` is still
false, and worker 2 stands before `raceFinished.store(true)`. -/
theorem main_solo_state :
    ((mainSystem refEasing (fun _ => 64) (fun _ => 32)).run
        (.space :: List.replicate 1922 (.worker 2))).shared
      = { raceFinished := false, raceStarted := true, winnerId := 2 } ∧
    (((mainSystem refEasing (fun _ => 64) (fun _ => 32)).run
        (.space :: List.replicate 1922 (.worker 2))).workers 2).pc = Pc.storeFinished := by
  have hlt : ∀ k, 1 ≤ k → k ≤ 639 →
      (Racer.advance running tickDelta k
        (Racer.mk0 5 305 64 32 (ease_in_out_back refLibM) 2)).percentageCompleted < 1 := by
    intro k _ hk
    apply lt_of_not_le
    intro hc
    have := (back_complete_iff refLibM (fun t _ _ => refPow_two t) k 5 305 64 32 2).mp hc
    omega
  obtain ⟨a1, a2, a3, a4, _⟩ := solo_ticks (2 : Fin 4) 639
    ((mainSystem refEasing (fun _ => 64) (fun _ => 32)).act .space)
    (by rw [main_started_shared]; rfl) (by rw [main_started_shared]; rfl) rfl
    (by rw [main_started_shared, main_started_racer]; exact hlt)
  rw [main_started_shared] at a1
  rw [main_started_shared, main_started_racer] at a4
  have hc : (Racer.advance running tickDelta (639 + 1)
      (Racer.mk0 5 305 64 32 (ease_in_out_back refLibM) 2)).percentageCompleted ≥ 1 :=
    (back_complete_iff refLibM (fun t _ _ => refPow_two t) (639 + 1) 5 305 64 32 2).mpr
      (by norm_num)
  rw [if_pos hc] at a4
  obtain ⟨c1, c2, _⟩ := enter_and_store _ (2 : Fin 4) (by rw [a1]; rfl) a4
  rw [solo_schedule, run_cons, run_append]
  refine ⟨?_, c2⟩
  rw [c1, a1, a3, main_started_racerId]
  rfl

/-- C3 amended, at the state between the two stores of the winner: after the space bar and
1922 steps of worker 2 alone, `winnerId` is the participant id 2 while `raceFinished` is
still false, and worker 2 stands before its `raceFinished.store`. -/
theorem winner_valid_iff_witness :
    ((mainSystem refEasing (fun _ => 64) (fun _ => 32)).run
        (.space :: List.replicate 1922 (.worker 2))).shared.winnerId = 2 ∧
    ((mainSystem refEasing (fun _ => 64) (fun _ => 32)).run
        (.space :: List.replicate 1922 (.worker 2))).shared.raceFinished = false ∧
    (((mainSystem refEasing (fun _ => 64) (fun _ => 32)).run
        (.space :: List.replicate 1922 (.worker 2))).workers 2).pc = Pc.storeFinished ∧
    ((((mainSystem refEasing (fun _ => 64) (fun _ => 32)).run
          (.space :: List.replicate 1922 (.worker 2))).shared.raceFinished = true →
        validId ((mainSystem refEasing (fun _ => 64) (fun _ => 32)).run
          (.space :: List.replicate 1922 (.worker 2))).shared.winnerId) ∧
      (validId ((mainSystem refEasing (fun _ => 64) (fun _ => 32)).run
          (.space :: List.replicate 1922 (.worker 2))).shared.winnerId ↔
        (((mainSystem refEasing (fun _ => 64) (fun _ => 32)).run
          (.space :: List.replicate 1922 (.worker 2))).shared.raceFinished = true ∨
         ∃ i, (((mainSystem refEasing (fun _ => 64) (fun _ => 32)).run
          (.space :: List.replicate 1922 (.worker 2))).workers i).pc = Pc.storeFinished))) := by
  obtain ⟨e1, e2⟩ := main_solo_state
  refine ⟨by rw [e1], by rw [e1], e2, ?_⟩
  exact winner_valid_iff refEasing (fun _ => 64) (fun _ => 32) _
    (reachable_run _ _ Reachable.start _)
/-! ## Two workers in the finalize block at once -/

/-- Whenever two workers stand at the finalize block of an unfinished race, the
interleaving load, load, store, store, store, store lets both enter the winning branch, and
the second overwrites the `winnerId` that the first recorded. -/
theorem finalize_interleaved {n : ℕ} (s : System n) (i j : Fin n) (hij : i ≠ j)
    (hfin : s.shared.raceFinished = false)
    (hi : (s.workers i).pc = .finishTest) (hj : (s.workers j).pc = .finishTest) :
    ((s.run [.worker i, .worker j]).workers i).pc = Pc.storeWinner ∧
    ((s.run [.worker i, .worker j]).workers j).pc = Pc.storeWinner ∧
    (s.run [.worker i, .worker j]).shared = s.shared ∧
    (s.run [.worker i, .worker j, .worker i, .worker i]).shared
      = { raceFinished := true, raceStarted := s.shared.raceStarted,
          winnerId := (s.workers i).racerId } ∧
    (s.run [.worker i, .worker j, .worker i, .worker i, .worker j, .worker j]).shared
      = { raceFinished := true, raceStarted := s.shared.raceStarted,
          winnerId := (s.workers j).racerId } := by
  have hji : j ≠ i := fun h => hij h.symm
  simp only [System.run, List.foldl, act_worker]
  -- first load, by `i`
  have a := step_finishTest s.shared (s.workers i) hi hfin
  have a_s : (s.stepWorker i).shared = s.shared := by rw [stepWorker_shared, a]
  have a_i : (s.stepWorker i).workers i = { s.workers i with pc := .storeWinner } := by
    rw [stepWorker_same, a]
  have a_j : (s.stepWorker i).workers j = s.workers j := stepWorker_other s i j hji
  -- second load, by `j`
  have b := step_finishTest (s.stepWorker i).shared ((s.stepWorker i).workers j)
    (by rw [a_j]; exact hj) (by rw [a_s]; exact hfin)
  have b_s : ((s.stepWorker i).stepWorker j).shared = s.shared := by
    rw [stepWorker_shared, b, a_s]
  have b_j : ((s.stepWorker i).stepWorker j).workers j
      = { s.workers j with pc := .storeWinner } := by
    rw [stepWorker_same, b, a_j]
  have b_i : ((s.stepWorker i).stepWorker j).workers i
      = { s.workers i with pc := .storeWinner } := by
    rw [stepWorker_other _ j i hij, a_i]
  -- the two stores of `i`
  have c := step_storeWinner ((s.stepWorker i).stepWorker j).shared
    (((s.stepWorker i).stepWorker j).workers i) (by rw [b_i])
  have c_s : (((s.stepWorker i).stepWorker j).stepWorker i).shared
      = { s.shared with winnerId := (s.workers i).racerId } := by
    rw [stepWorker_shared, c, b_s, b_i]
  have c_i : (((s.stepWorker i).stepWorker j).stepWorker i).workers i
      = { s.workers i with pc := .storeFinished } := by
    rw [stepWorker_same, c, b_i]
  have c_j : (((s.stepWorker i).stepWorker j).stepWorker i).workers j
      = { s.workers j with pc := .storeWinner } := by
    rw [stepWorker_other _ i j hji, b_j]
  have d := step_storeFinished (((s.stepWorker i).stepWorker j).stepWorker i).shared
    ((((s.stepWorker i).stepWorker j).stepWorker i).workers i) (by rw [c_i])
  have d_s : ((((s.stepWorker i).stepWorker j).stepWorker i).stepWorker i).shared
      = { raceFinished := true, raceStarted := s.shared.raceStarted,
          winnerId := (s.workers i).racerId } := by
    rw [stepWorker_shared, d, c_s]
  have d_j : ((((s.stepWorker i).stepWorker j).stepWorker i).stepWorker i).workers j
      = { s.workers j with pc := .storeWinner } := by
    rw [stepWorker_other _ i j hji, c_j]
  -- the two stores of `j`
  have e := step_storeWinner ((((s.stepWorker i).stepWorker j).stepWorker i).stepWorker i).shared
    (((((s.stepWorker i).stepWorker j).stepWorker i).stepWorker i).workers j) (by rw [d_j])
  have e_s : (((((s.stepWorker i).stepWorker j).stepWorker i).stepWorker i).stepWorker j).shared
      = { raceFinished := true, raceStarted := s.shared.raceStarted,
          winnerId := (s.workers j).racerId } := by
    rw [stepWorker_shared, e, d_s, d_j]
  have e_j : (((((s.stepWorker i).stepWorker j).stepWorker i).stepWorker i).stepWorker j).workers j
      = { s.workers j with pc := .storeFinished } := by
    rw [stepWorker_same, e, d_j]
  have f := step_storeFinished
    (((((s.stepWorker i).stepWorker j).stepWorker i).stepWorker i).stepWorker j).shared
    ((((((s.stepWorker i).stepWorker j).stepWorker i).stepWorker i).stepWorker j).workers j)
    (by rw [e_j])
  refine ⟨by rw [b_i], by rw [b_j], b_s, d_s, ?_⟩
  rw [stepWorker_shared, f, e_s]

/-- The double win is reachable in the program itself: for any assignment of easing
functions there is an interleaving from the initial state after which workers 0 and 1 have
both entered the winning branch, worker 0 records itself and finishes the race, and worker 1
then replaces the recorded winner. -/
theorem double_win_reachable (fs : Fin 4 → ℚ → ℚ) (w h : Fin 4 → ℤ) :
    ∃ s : System 4, Reachable (mainSystem fs w h) s ∧
      ((s.run [.worker 0, .worker 1]).workers 0).pc = Pc.storeWinner ∧
      ((s.run [.worker 0, .worker 1]).workers 1).pc = Pc.storeWinner ∧
      (s.run [.worker 0, .worker 1, .worker 0, .worker 0]).shared
        = { raceFinished := true, raceStarted := true, winnerId := 0 } ∧
      (s.run [.worker 0, .worker 1, .worker 0, .worker 0, .worker 1, .worker 1]).shared
        = { raceFinished := true, raceStarted := true, winnerId := 1 } := by
  obtain ⟨sched0, b1, b2, b3, b4⟩ :=
    solo_to_finalize 1001 0 ((mainSystem fs w h).run [.space]) 0 (by norm_num) rfl rfl rfl rfl
      (by show (0 : ℚ) < 1; norm_num)
  have h1w : ((((mainSystem fs w h).run [.space]).run sched0).workers 1)
      = ((mainSystem fs w h).run [.space]).workers 1 := b4 1 (by decide)
  obtain ⟨sched1, c1, c2, c3, c4⟩ :=
    solo_to_finalize 1001 0 (((mainSystem fs w h).run [.space]).run sched0) 1 (by norm_num)
      (by rw [b1]; rfl) (by rw [b1]; rfl) (by rw [h1w]; rfl) (by rw [h1w]; rfl)
      (by show (0 : ℚ) < 1; norm_num)
  have hs : ((((mainSystem fs w h).run [.space]).run sched0).run sched1).shared = running := by
    rw [c1, b1]; rfl
  have h0pc : (((((mainSystem fs w h).run [.space]).run sched0).run sched1).workers 0).pc
      = Pc.finishTest := by
    rw [c4 0 (by decide)]; exact b2
  have h0id : (((((mainSystem fs w h).run [.space]).run sched0).run sched1).workers 0).racerId
      = 0 := by
    rw [c4 0 (by decide), b3]; rfl
  have h1id : (((((mainSystem fs w h).run [.space]).run sched0).run sched1).workers 1).racerId
      = 1 := by
    rw [c3, h1w]; rfl
  obtain ⟨e1, e2, _, e4, e5⟩ := finalize_interleaved
    ((((mainSystem fs w h).run [.space]).run sched0).run sched1) 0 1 (by decide)
    (by rw [hs]; rfl) h0pc c2
  refine ⟨_, reachable_run _ _ (reachable_run _ _ (reachable_run _ _ Reachable.start _) _) _,
    e1, e2, ?_, ?_⟩
  · rw [e4, hs, h0id]; rfl
  · rw [e5, hs, h1id]; rfl

/-! ## Serial executions -/

/-- One uninterrupted loop iteration of a running race: the tick, and when the racer is
complete the finalize block with its two stores. -/
theorem iteration_running (g : RaceState) (w : Worker) (hst : g.raceStarted = true)
    (hfin : g.raceFinished = false) (hpc : w.pc = .loopTest) :
    w.iteration g =
      if (w.racer.update g tickDelta).2.percentageCompleted ≥ 1 then
        ({ raceFinished := true, raceStarted := g.raceStarted, winnerId := w.racerId },
          { w with racer := (w.racer.update g tickDelta).2, pc := .exited })
      else (g, { w with racer := (w.racer.update g tickDelta).2, pc := .loopTest }) := by
  have h1 := step_loopTest g w hpc hfin
  have h2 := step_startTest g { w with pc := .startTest } rfl hst
  have h3 := step_tick g { w with pc := .tick } rfl
  unfold Worker.iteration
  rw [Worker.runToLoop]
  simp only [h1]
  rw [if_neg (by simp), Worker.runToLoop]
  simp only [h2]
  rw [if_neg (by simp), Worker.runToLoop]
  simp only [h3]
  by_cases hc : (w.racer.update g tickDelta).2.percentageCompleted ≥ 1
  · simp only [if_pos hc]
    have h4 := step_finishTest g
      { w with racer := (w.racer.update g tickDelta).2, pc := .finishTest } rfl hfin
    have h5 := step_storeWinner g
      { w with racer := (w.racer.update g tickDelta).2, pc := .storeWinner } rfl
    have h6 := step_storeFinished { g with winnerId := w.racerId }
      { w with racer := (w.racer.update g tickDelta).2, pc := .storeFinished } rfl
    rw [if_neg (by simp), Worker.runToLoop]
    simp only [h4]
    rw [if_neg (by simp), Worker.runToLoop]
    simp only [h5]
    rw [if_neg (by simp), Worker.runToLoop]
    simp only [h6]
    rw [if_pos (by simp)]
  · simp only [if_neg hc]
    rw [if_pos (by simp)]

theorem iteration_finished (g : RaceState) (w : Worker) (hfin : g.raceFinished = true)
    (hpc : w.pc = .loopTest) : w.iteration g = (g, { w with pc := .exited }) := by
  have h1 := step_loopTest_finished g w hpc hfin
  unfold Worker.iteration
  rw [Worker.runToLoop]
  simp only [h1]
  rw [if_pos (by simp)]

theorem iteration_exited (g : RaceState) (w : Worker) (hpc : w.pc = .exited) :
    w.iteration g = (g, w) := by
  have h1 := step_exited g w hpc
  unfold Worker.iteration
  rw [Worker.runToLoop]
  simp only [h1]
  rw [if_pos (Or.inr hpc)]

@[simp] theorem iterate_shared {n : ℕ} (s : System n) (i : Fin n) :
    (s.iterate i).shared = ((s.workers i).iteration s.shared).1 := rfl

@[simp] theorem iterate_same {n : ℕ} (s : System n) (i : Fin n) :
    (s.iterate i).workers i = ((s.workers i).iteration s.shared).2 := by
  simp [System.iterate]

@[simp] theorem iterate_other {n : ℕ} (s : System n) (i j : Fin n) (h : j ≠ i) :
    (s.iterate i).workers j = s.workers j := by
  simp [System.iterate, Function.update_noteq h]

theorem runSerial_append {n : ℕ} (s : System n) (a b : List (Fin n)) :
    s.runSerial (a ++ b) = (s.runSerial a).runSerial b := by
  simp [System.runSerial, List.foldl_append]

theorem runSerial_cons {n : ℕ} (s : System n) (i : Fin n) (b : List (Fin n)) :
    s.runSerial (i :: b) = (s.iterate i).runSerial b := rfl

theorem serialInv_start (fs : Fin 4 → ℚ → ℚ) (w h : Fin 4 → ℤ) :
    SerialInv (mainSystem fs w h).pressSpace := by
  refine ⟨rfl, fun j => rfl, fun j => Or.inl rfl, fun _ j => rfl, ?_⟩
  intro hc
  exact absurd hc (show ¬ (false = true) from Bool.false_ne_true)

/-- Once the race is finished a loop iteration changes neither the globals nor any racer. -/
theorem iterate_finished (s : System 4) (i : Fin 4) (hs : SerialInv s)
    (hfin : s.shared.raceFinished = true) :
    (s.iterate i).shared = s.shared ∧ SerialInv (s.iterate i) := by
  obtain ⟨i1, i2, i3, i4, i5⟩ := hs
  have key : (s.workers i).iteration s.shared = (s.shared, { s.workers i with pc := .exited }) := by
    rcases i3 i with h | h
    · exact iteration_finished _ _ hfin h
    · rw [iteration_exited _ _ h]
      congr 1
      cases hw : s.workers i
      rw [hw] at h
      simp only at h
      rw [h]
  have e1 : (s.iterate i).shared = s.shared := by rw [iterate_shared, key]
  have e2 : (s.iterate i).workers i = { s.workers i with pc := .exited } := by
    rw [iterate_same, key]
  refine ⟨e1, ?_, ?_, ?_, ?_, ?_⟩
  · rw [e1]; exact i1
  · intro j
    by_cases hj : j = i
    · subst hj; rw [e2]; exact i2 j
    · rw [iterate_other s i j hj]; exact i2 j
  · intro j
    by_cases hj : j = i
    · subst hj; rw [e2]; exact Or.inr rfl
    · rw [iterate_other s i j hj]; exact i3 j
  · intro hc
    rw [e1, hfin] at hc
    exact absurd hc (by decide)
  · intro _
    obtain ⟨j, hj⟩ := i5 hfin
    refine ⟨j, ?_⟩
    by_cases hji : j = i
    · subst hji; rw [e2]; exact hj
    · rw [iterate_other s i j hji]; exact hj

theorem iterate_inv (s : System 4) (i : Fin 4) (hs : SerialInv s) : SerialInv (s.iterate i) := by
  cases hfin : s.shared.raceFinished
  · obtain ⟨i1, i2, i3, i4, i5⟩ := hs
    have key := iteration_running s.shared (s.workers i) i1 hfin (i4 hfin i)
    by_cases hc : ((s.workers i).racer.update s.shared tickDelta).2.percentageCompleted ≥ 1
    · rw [if_pos hc] at key
      have e1 : (s.iterate i).shared =
          { raceFinished := true, raceStarted := s.shared.raceStarted,
            winnerId := (s.workers i).racerId } := by
        rw [iterate_shared, key]
      have e2 : (s.iterate i).workers i = { s.workers i with
          racer := ((s.workers i).racer.update s.shared tickDelta).2, pc := .exited } := by
        rw [iterate_same, key]
      refine ⟨by rw [e1]; exact i1, ?_, ?_, ?_, ?_⟩
      · intro j
        by_cases hj : j = i
        · subst hj; rw [e2]; exact i2 j
        · rw [iterate_other s i j hj]; exact i2 j
      · intro j
        by_cases hj : j = i
        · subst hj; rw [e2]; exact Or.inr rfl
        · rw [iterate_other s i j hj]; exact i3 j
      · intro h
        rw [e1] at h
        exact absurd h (show ¬ (true = false) from by decide)
      · intro _
        exact ⟨i, by rw [e2]; exact hc⟩
    · rw [if_neg hc] at key
      have e1 : (s.iterate i).shared = s.shared := by rw [iterate_shared, key]
      have e2 : (s.iterate i).workers i = { s.workers i with
          racer := ((s.workers i).racer.update s.shared tickDelta).2, pc := .loopTest } := by
        rw [iterate_same, key]
      refine ⟨by rw [e1]; exact i1, ?_, ?_, ?_, ?_⟩
      · intro j
        by_cases hj : j = i
        · subst hj; rw [e2]; exact i2 j
        · rw [iterate_other s i j hj]; exact i2 j
      · intro j
        by_cases hj : j = i
        · subst hj; rw [e2]; exact Or.inl rfl
        · rw [iterate_other s i j hj]; exact i3 j
      · intro _ j
        by_cases hj : j = i
        · subst hj; rw [e2]
        · rw [iterate_other s i j hj]; exact i4 hfin j
      · intro h
        rw [e1, hfin] at h
        exact absurd h (by decide)
  · exact (iterate_finished s i hs hfin).2

theorem runSerial_inv (order : List (Fin 4)) : ∀ s : System 4, SerialInv s →
    SerialInv (s.runSerial order) := by
  induction order with
  | nil => intro s hs; exact hs
  | cons i rest ih => intro s hs; exact ih _ (iterate_inv s i hs)

theorem runSerial_finished (order : List (Fin 4)) : ∀ s : System 4, SerialInv s →
    s.shared.raceFinished = true → (s.runSerial order).shared = s.shared := by
  induction order with
  | nil => intro s _ _; rfl
  | cons i rest ih =>
    intro s hs hfin
    obtain ⟨e, hinv⟩ := iterate_finished s i hs hfin
    rw [runSerial_cons, ih _ hinv (by rw [e]; exact hfin), e]

/-- C9. In a serial execution of the four worker loops of a started race (whole loop
iterations, one worker at a time, each tick `update(0.001f)`), if no racer is complete after
the iterations `pre` and the next iteration, by worker 2, completes racer 2, then after any
further iterations `post` the globals are `raceFinished = true`, `winnerId = 2`, for every
assignment of easing functions. -/
theorem serial_first_complete_wins (fs : Fin 4 → ℚ → ℚ) (w h : Fin 4 → ℤ)
    (pre post : List (Fin 4))
    (hpre : ∀ j, (((mainSystem fs w h).pressSpace.runSerial pre).workers
      j).racer.getPercentageCompleted < 1)
    (h2 : (((mainSystem fs w h).pressSpace.runSerial (pre ++ [2])).workers
      2).racer.getPercentageCompleted ≥ 1) :
    ((mainSystem fs w h).pressSpace.runSerial (pre ++ 2 :: post)).shared
      = { raceFinished := true, raceStarted := true, winnerId := 2 } := by
  have hinv := runSerial_inv pre _ (serialInv_start fs w h)
  obtain ⟨i1, i2, i3, i4, i5⟩ := hinv
  have hfin : ((mainSystem fs w h).pressSpace.runSerial pre).shared.raceFinished = false := by
    cases hc : ((mainSystem fs w h).pressSpace.runSerial pre).shared.raceFinished
    · rfl
    · obtain ⟨j, hj⟩ := i5 hc
      exact absurd hj (not_le.mpr (hpre j))
  have key := iteration_running _ _ i1 hfin (i4 hfin 2)
  rw [runSerial_append] at h2
  have h2' : ((((mainSystem fs w h).pressSpace.runSerial pre).iterate 2).workers
      2).racer.percentageCompleted ≥ 1 := h2
  rw [iterate_same] at h2'
  have hc : ((((mainSystem fs w h).pressSpace.runSerial pre).workers 2).racer.update
      ((mainSystem fs w h).pressSpace.runSerial pre).shared tickDelta).2.percentageCompleted
      ≥ 1 := by
    by_contra hn
    rw [key, if_neg hn] at h2'
    exact hn h2'
  rw [if_pos hc] at key
  have e1 : (((mainSystem fs w h).pressSpace.runSerial pre).iterate 2).shared
      = { raceFinished := true, raceStarted := true, winnerId := 2 } := by
    rw [iterate_shared, key, i1, i2 2]
    rfl
  rw [runSerial_append, runSerial_cons,
    runSerial_finished post _ (iterate_inv _ 2 ⟨i1, i2, i3, i4, i5⟩) (by rw [e1]), e1]

/-- Whatever the easing function, a fresh racer is at `1.0` after 1001 ticks of a running
race. -/
theorem advance_1001 (x y w h id : ℤ) (f : ℚ → ℚ) :
    (Racer.advance running tickDelta 1001 (Racer.mk0 x y w h f id)).percentageCompleted = 1 := by
  rcases advance_cases running rfl 1001 (Racer.mk0 x y w h f id)
    (by show (0 : ℚ) ≤ 1; norm_num) with h1 | h1
  · rw [h1]; exact accumulate_1001
  · exact h1

theorem iteration_racer (g : RaceState) (w : Worker) (hst : g.raceStarted = true)
    (hfin : g.raceFinished = false) (hpc : w.pc = .loopTest) :
    (w.iteration g).2.racer = (w.racer.update g tickDelta).2 := by
  rw [iteration_running g w hst hfin hpc]
  split_ifs <;> rfl

/-- Worker `i` run serially on its own for `n` iterations, none of which completes its
racer: the racer has been ticked `n` times and nothing else has changed. -/
theorem serial_solo {m : ℕ} (i : Fin m) (n : ℕ) : ∀ s : System m,
    s.shared.raceStarted = true → s.shared.raceFinished = false →
    (s.workers i).pc = .loopTest →
    (∀ k, 1 ≤ k → k ≤ n →
      (Racer.advance s.shared tickDelta k (s.workers i).racer).percentageCompleted < 1) →
    (s.runSerial (List.replicate n i)).shared = s.shared ∧
    ((s.runSerial (List.replicate n i)).workers i).racer
      = Racer.advance s.shared tickDelta n (s.workers i).racer ∧
    ((s.runSerial (List.replicate n i)).workers i).pc = Pc.loopTest ∧
    ∀ j, j ≠ i → (s.runSerial (List.replicate n i)).workers j = s.workers j := by
  induction n with
  | zero => intro s _ _ hpc _; exact ⟨rfl, rfl, hpc, fun _ _ => rfl⟩
  | succ n ih =>
    intro s hst hfin hpc hlt
    have key := iteration_running s.shared (s.workers i) hst hfin hpc
    have h1 : ¬ ((s.workers i).racer.update s.shared tickDelta).2.percentageCompleted ≥ 1 :=
      not_le.mpr (hlt 1 le_rfl (by omega))
    rw [if_neg h1] at key
    have e1 : (s.iterate i).shared = s.shared := by rw [iterate_shared, key]
    have e2 : (s.iterate i).workers i = { s.workers i with
        racer := ((s.workers i).racer.update s.shared tickDelta).2, pc := .loopTest } := by
      rw [iterate_same, key]
    obtain ⟨a1, a2, a3, a4⟩ := ih (s.iterate i) (by rw [e1]; exact hst) (by rw [e1]; exact hfin)
      (by rw [e2]) (by
        intro k hk1 hk2
        rw [e1, e2]
        exact hlt (k + 1) (by omega) (by omega))
    rw [List.replicate_succ, runSerial_cons]
    refine ⟨by rw [a1, e1], ?_, a3, ?_⟩
    · rw [a2, e1, e2]
      rfl
    · intro j hj
      rw [a4 j hj, iterate_other s i j hj]

theorem shuffled_start_shared :
    (mainSystem shuffledEasing (fun _ => 64) (fun _ => 32)).pressSpace.shared = running := rfl

theorem shuffled_start_racer :
    ((mainSystem shuffledEasing (fun _ => 64) (fun _ => 32)).pressSpace.workers 2).racer
      = Racer.mk0 5 305 64 32 (ease_in_sine refLibM) 2 := rfl

theorem shuffled_start_progress (j : Fin 4) :
    ((mainSystem shuffledEasing (fun _ => 64) (fun _ => 32)).pressSpace.workers
      j).racer.percentageCompleted = 0 := rfl

theorem runSerial_nil {n : ℕ} (s : System n) : s.runSerial [] = s := rfl

/-- C9, at a concrete schedule: racer 2, eased by `ease_in_sine`, is ticked 1000 times
without completing, its 1001st iteration completes it, and the iterations of workers 0, 1
and 3 follow. -/
theorem serial_first_complete_wins_witness :
    ((mainSystem shuffledEasing (fun _ => 64) (fun _ => 32)).pressSpace.runSerial
        (List.replicate 1000 2 ++ 2 :: [0, 1, 3])).shared
      = { raceFinished := true, raceStarted := true, winnerId := 2 } := by
  have hlt : ∀ k, 1 ≤ k → k ≤ 1000 →
      (Racer.advance running tickDelta k
        (Racer.mk0 5 305 64 32 (ease_in_sine refLibM) 2)).percentageCompleted < 1 := by
    intro k _ hk
    rw [ease_in_sine_no_sync refLibM refCos_lower k hk]
    have := @accumulate_le_of_le k 1000 hk
    rw [accumulate_1000] at this
    exact lt_of_le_of_lt this (by norm_num)
  obtain ⟨a1, a2, a3, a4⟩ := serial_solo (2 : Fin 4) 1000
    (mainSystem shuffledEasing (fun _ => 64) (fun _ => 32)).pressSpace
    (by rw [shuffled_start_shared]; rfl) (by rw [shuffled_start_shared]; rfl) rfl
    (by rw [shuffled_start_shared, shuffled_start_racer]; exact hlt)
  rw [shuffled_start_shared] at a1
  rw [shuffled_start_shared, shuffled_start_racer] at a2
  apply serial_first_complete_wins shuffledEasing (fun _ => 64) (fun _ => 32)
    (List.replicate 1000 2) [0, 1, 3]
  · intro j
    rw [getPercentageCompleted_eq]
    by_cases hj : j = 2
    · subst hj
      rw [a2]
      exact hlt 1000 (by norm_num) le_rfl
    · rw [a4 j hj, shuffled_start_progress]
      norm_num
  · rw [getPercentageCompleted_eq, runSerial_append, runSerial_cons, runSerial_nil, iterate_same,
      iteration_racer _ _ (by rw [a1]; rfl) (by rw [a1]; rfl) a3, a2, a1,
      ← advance_succ_last]
    exact (advance_1001 5 305 64 32 2 (ease_in_sine refLibM)).ge

end ThreadRace
